import Mathlib

/-!
Verification of the SecureSync Dependency Graph & SBOM Document Engine.

This file shallowly embeds the core of the repository — the dependency-graph
builder (`src/graph/builder.ts`) and the SBOM document generator
(`src/sbom/generator.ts`) — and proves properties of the embedded code.

Modelling conventions:
* TypeScript `Map<string, T>` values (which preserve insertion order) are
  modelled as association lists `List (String × T)`; `Map.get` is `alLookup`
  (first matching key), `Map.set` on a fresh key appends, and in-place
  mutation of a stored object is `alUpdate`.
* The recursive `DependencyNode` tree (a node with an optional ordered map of
  child nodes) is modelled by the single inductive `DepEntries`: one
  constructor per map entry, carrying the entry key together with the mapped
  node's own fields and children.  An absent (`undefined`) child map and an
  empty map behave identically in the source (the `if (dep.dependencies)`
  guard merely skips an empty loop), so both are `DepEntries.nil`.
* Non-deterministic data (UUID serial numbers, timestamps) are explicit
  parameters of the rendering functions.
-/

namespace SecureSync

/-- Association-list lookup: the first entry with the given key, mirroring
`Map.get` of a JavaScript `Map` (whose keys are unique). -/
def alLookup {α : Type} : List (String × α) → String → Option α
  | [], _ => none
  | (k, v) :: rest, key => if k = key then some v else alLookup rest key

/-- Key membership test, mirroring `Map.has`. -/
def containsKey {α : Type} (l : List (String × α)) (key : String) : Bool :=
  (alLookup l key).isSome

/-- Update every entry stored under `key` in place, mirroring mutation of the
object returned by `Map.get` (keys are unique in all maps built here). -/
def alUpdate {α : Type} : List (String × α) → String → (α → α) →
    List (String × α)
  | [], _, _ => []
  | (a, v) :: rest, key, f =>
    if a = key then (a, f v) :: alUpdate rest key f
    else (a, v) :: alUpdate rest key f

/-- The `Map.set` operation of a JavaScript `Map`: replace the value at an
existing key in place, otherwise append the new entry. -/
def alSet {α : Type} (l : List (String × α)) (key : String) (v : α) :
    List (String × α) :=
  if containsKey l key then alUpdate l key (fun _ => v) else l ++ [(key, v)]

/-- Values of a map in insertion order, mirroring `Map.values()`. -/
def alValues {α : Type} (l : List (String × α)) : List α := l.map Prod.snd

/-- Model of the recursive `DependencyNode` child maps
(`Map<string, DependencyNode>`): a list of entries, each carrying the map key
and the mapped node's `name`, `version`, `resolved` and child entries. -/
inductive DepEntries : Type where
  | nil : DepEntries
  | cons (key name version resolved : String)
      (deps : DepEntries) (rest : DepEntries) : DepEntries

/-- Model of `DependencyNode` (scanner/types.ts): `name`, `version`,
`resolved`, and the optional child map. -/
structure DependencyNode where
  name : String
  version : String
  resolved : String
  dependencies : DepEntries

/-- Model of `PackageInfo` (scanner/types.ts). -/
structure PackageInfo where
  name : String
  version : String
  isDevDependency : Bool
  isDirect : Bool
deriving DecidableEq

/-- Model of `DependencyTree` (scanner/types.ts). -/
structure DependencyTree where
  name : String
  version : String
  dependencies : DepEntries
  packages : List PackageInfo

/-- Model of `GraphNode` (graph/builder.ts). -/
structure GraphNode where
  id : String
  name : String
  version : String
  depth : Nat
  parent : Option String
  children : List String
  vulnerabilities : Nat
  isDevDependency : Bool
deriving DecidableEq

/-- Model of `DependencyGraph` (graph/builder.ts). -/
structure DependencyGraph where
  nodes : List (String × GraphNode)
  edges : List (String × String)
  roots : List String
deriving DecidableEq

/-- Mutable state threaded through the graph builder: the node table and the
edge list. -/
structure BuildState where
  nodes : List (String × GraphNode)
  edges : List (String × String)
deriving DecidableEq

/-- The canonical dedup key `"name@version"` (template literal
`` `${name}@${dep.version}` `` in graph/builder.ts). -/
def dedupKey (name version : String) : String := name ++ "@" ++ version

/-- The fresh `GraphNode` created at first encounter (graph/builder.ts lines
47–56). -/
def freshNode (name version nodeId : String) (depth : Nat)
    (parent : Option String) (isDev : Bool) : GraphNode :=
  { id := nodeId, name := name, version := version, depth := depth,
    parent := parent, children := [], vulnerabilities := 0,
    isDevDependency := isDev }

/-- Lines 45–57 of graph/builder.ts: if the node table has no entry for the
key, append a fresh `GraphNode` with the current depth, parent and dev flag. -/
def addNodeIfAbsent (name version nodeId : String) (depth : Nat)
    (parent : Option String) (isDev : Bool) (st : BuildState) : BuildState :=
  if containsKey st.nodes nodeId then st
  else { st with
    nodes := st.nodes ++ [(nodeId, freshNode name version nodeId depth parent isDev)] }

/-- Lines 59–66 of graph/builder.ts: when a parent id was supplied, append the
edge `(parent, nodeId)` and, if absent there, append `nodeId` to the parent's
children list.  The source pushes the edge before reading
`nodes.get(parent)`; pushing onto `edges` does not touch the node table, so
the lookup is written here against the unchanged `st.nodes`. -/
def linkParent (nodeId : String) (parent : Option String) (st : BuildState) :
    BuildState :=
  match parent with
  | none => st
  | some p =>
    match alLookup st.nodes p with
    | none => { st with edges := st.edges ++ [(p, nodeId)] }
    | some parentNode =>
      if nodeId ∈ parentNode.children then
        { st with edges := st.edges ++ [(p, nodeId)] }
      else
        { nodes := alUpdate st.nodes p
            (fun n => { n with children := n.children ++ [nodeId] }),
          edges := st.edges ++ [(p, nodeId)] }

/-- The non-recursive body of `buildNodeRecursive` (graph/builder.ts, lines
45–66): create the node if its key is unseen, then record the parent edge and
the parent's deduplicated child link. -/
def visitNode (name version nodeId : String) (depth : Nat)
    (parent : Option String) (isDev : Bool) (st : BuildState) : BuildState :=
  linkParent nodeId parent (addNodeIfAbsent name version nodeId depth parent isDev st)

/-- The recursion of `buildNodeRecursive` over a child map (lines 68–82):
each entry is visited with id `` `${childName}@${childDep.version}` ``,
depth + 1 and the current node as parent, then its own children are
processed, then the remaining siblings. -/
def buildEntriesRec : DepEntries → String → Nat → Bool → BuildState → BuildState
  | .nil, _, _, _, st => st
  | .cons key name version _resolved deps rest, parentId, depth, isDev, st =>
    let childId := dedupKey key version
    let st1 := visitNode name version childId (depth + 1) (some parentId) isDev st
    let st2 := buildEntriesRec deps childId (depth + 1) isDev st1
    buildEntriesRec rest parentId depth isDev st2

/-- Model of `buildNodeRecursive` (graph/builder.ts lines 36–83): visit the
node itself, then recurse into its children. -/
def buildNodeRecursive (dep : DependencyNode) (nodeId : String) (depth : Nat)
    (parent : Option String) (isDev : Bool) (st : BuildState) : BuildState :=
  buildEntriesRec dep.dependencies nodeId depth isDev
    (visitNode dep.name dep.version nodeId depth parent isDev st)

/-- The top-level loop of `buildGraph` (lines 26–31): every top-level entry is
recorded as a root (key `` `${name}@${dep.version}` ``) and visited at depth 0
with no parent and the dev flag false. -/
def buildRootsRec : DepEntries → BuildState → List String → BuildState × List String
  | .nil, st, roots => (st, roots)
  | .cons key name version _resolved deps rest, st, roots =>
    let nodeId := dedupKey key version
    let st1 := visitNode name version nodeId 0 none false st
    let st2 := buildEntriesRec deps nodeId 0 false st1
    buildRootsRec rest st2 (roots ++ [nodeId])

/-- Model of `buildGraph` (graph/builder.ts lines 20–34): run the root loop
on an empty state and package up the node table, the edge list and the root
list. -/
def buildGraph (t : DependencyTree) : DependencyGraph :=
  { nodes := (buildRootsRec t.dependencies ⟨[], []⟩ []).1.nodes,
    edges := (buildRootsRec t.dependencies ⟨[], []⟩ []).1.edges,
    roots := (buildRootsRec t.dependencies ⟨[], []⟩ []).2 }

/-! Fuel-indexed variant of the graph builder.  The TypeScript recursion is
unguarded; the fuel counts the depth of the call stack (one unit per nested
`buildNodeRecursive` call), and `none` models the recursion failing to
complete within the given stack depth.  Claim C9 shows that fuel equal to the
tree's size (hence linear in the input) always suffices. -/

/-- Fuelled version of `buildEntriesRec`: entering a child's subtree consumes
one unit of fuel (one stack frame); siblings share the remaining fuel. -/
def buildEntriesRecF : Nat → DepEntries → String → Nat → Bool → BuildState →
    Option BuildState
  | _, .nil, _, _, _, st => some st
  | fuel, .cons key name version _resolved deps rest, parentId, depth, isDev, st =>
    match fuel with
    | 0 => none
    | f + 1 =>
      let childId := dedupKey key version
      let st1 := visitNode name version childId (depth + 1) (some parentId) isDev st
      match buildEntriesRecF f deps childId (depth + 1) isDev st1 with
      | none => none
      | some st2 => buildEntriesRecF fuel rest parentId depth isDev st2

/-- Fuelled version of the top-level root loop. -/
def buildRootsRecF : Nat → DepEntries → BuildState → List String →
    Option (BuildState × List String)
  | _, .nil, st, roots => some (st, roots)
  | fuel, .cons key name version _resolved deps rest, st, roots =>
    match fuel with
    | 0 => none
    | f + 1 =>
      let nodeId := dedupKey key version
      let st1 := visitNode name version nodeId 0 none false st
      match buildEntriesRecF f deps nodeId 0 false st1 with
      | none => none
      | some st2 => buildRootsRecF fuel rest st2 (roots ++ [nodeId])

/-- Fuelled version of `buildGraph`. -/
def buildGraphF (fuel : Nat) (t : DependencyTree) : Option DependencyGraph :=
  (buildRootsRecF fuel t.dependencies ⟨[], []⟩ []).map
    (fun p => { nodes := p.1.nodes, edges := p.1.edges, roots := p.2 })

/-- Number of `DependencyNode` occurrences in a child-map forest. -/
def entSize : DepEntries → Nat
  | .nil => 0
  | .cons _ _ _ _ deps rest => 1 + entSize deps + entSize rest

/-- Nesting height of a child-map forest (maximal stack depth the builder
needs for it). -/
def entHeight : DepEntries → Nat
  | .nil => 0
  | .cons _ _ _ _ deps rest => max (entHeight deps + 1) (entHeight rest)

/-- Size of a dependency tree: the number of node occurrences below the
top-level map. -/
def treeSize (t : DependencyTree) : Nat := entSize t.dependencies

/-- Dedup keys of all node occurrences of a forest, one per occurrence, in
traversal order.  Each occurrence is keyed the way the builder keys it:
`` `${mapKey}@${node.version}` ``. -/
def entOccKeys : DepEntries → List String
  | .nil => []
  | .cons key _name version _resolved deps rest =>
    dedupKey key version :: (entOccKeys deps ++ entOccKeys rest)

/-- The `(name, version)` pairs of all node occurrences of a forest (the
node's own `name` field, not the map key). -/
def entOccPairs : DepEntries → List (String × String)
  | .nil => []
  | .cons _key name version _resolved deps rest =>
    (name, version) :: (entOccPairs deps ++ entOccPairs rest)

/-- Occurrence pairs of a whole tree. -/
def treeOccPairs (t : DependencyTree) : List (String × String) :=
  entOccPairs t.dependencies

/-- A forest is well-named when every map key equals the mapped node's
`name`, the well-formedness the source ecosystem guarantees. -/
def entWellNamed : DepEntries → Bool
  | .nil => true
  | .cons key name _version _resolved deps rest =>
    key == name && entWellNamed deps && entWellNamed rest

/-- The tree's mapping keys all equal the mapped node's name. -/
def treeWellNamed (t : DependencyTree) : Bool := entWellNamed t.dependencies

/-- No version string anywhere in the forest contains `'@'`. -/
def entVersionsAtFree : DepEntries → Bool
  | .nil => true
  | .cons _key _name version _resolved deps rest =>
    !decide ('@' ∈ version.data) && entVersionsAtFree deps &&
      entVersionsAtFree rest

/-- No version string in the tree contains `'@'`. -/
def treeVersionsAtFree (t : DependencyTree) : Bool :=
  entVersionsAtFree t.dependencies

/-! Path queries (graph/builder.ts lines 85–134). -/

/-- Model of `findPathsRecursive` (lines 106–134).  The TypeScript recursion
is unguarded over the graph's child links; `fuel` bounds the recursion depth
(each nested call consumes one unit), which never changes the result for
traversals that terminate within the bound.  Per child, a matching child
contributes its path and is not descended into; a non-matching child is
searched recursively; results are concatenated in child-list order. -/
def findPathsRecursive (g : DependencyGraph) (target : String) :
    Nat → String → List String → List (List String)
  | 0, _, _ => []
  | fuel + 1, currentNodeId, currentPath =>
    match alLookup g.nodes currentNodeId with
    | none => []
    | some node =>
      (node.children.map (fun childId =>
        match alLookup g.nodes childId with
        | none => []
        | some childNode =>
          let newPath := currentPath ++ [childId]
          if childNode.name = target then [newPath]
          else findPathsRecursive g target fuel childId newPath)).flatten

/-- Model of `findDependencyPath` (lines 85–104): per root in declaration
order, a matching root yields the one-element path, otherwise the root's
subtree is searched.  The fuel `g.nodes.length` suffices for every
repetition-free traversal (a path without repeated ids visits at most one
node per table entry). -/
def findDependencyPath (g : DependencyGraph) (packageName : String) :
    List (List String) :=
  (g.roots.map (fun root =>
    match alLookup g.nodes root with
    | none => []
    | some rootNode =>
      if rootNode.name = packageName then [[root]]
      else findPathsRecursive g packageName g.nodes.length root [root])).flatten

/-! Identity canonicalizer (sbom/generator.ts lines 415–435). -/

/-- Characters `encodeURIComponent` leaves unescaped:
`A–Z a–z 0–9 - _ . ! ~ * ' ( )`. -/
def uriUnreservedChar (c : Char) : Bool :=
  c.isAlpha || c.isDigit || c = '-' || c = '_' || c = '.' || c = '!' ||
  c = '~' || c = '*' || c = Char.ofNat 39 || c = '(' || c = ')'

/-- Uppercase hexadecimal digit for `n < 16`. -/
def hexDigitChar (n : Nat) : Char :=
  if n < 10 then Char.ofNat (48 + n) else Char.ofNat (55 + n)

/-- UTF-8 byte sequence of a code point (JavaScript percent-encodes each
UTF-8 byte of a non-unreserved character). -/
def utf8BytesOf (n : Nat) : List Nat :=
  if n < 128 then [n]
  else if n < 2048 then [192 + n / 64, 128 + n % 64]
  else if n < 65536 then [224 + n / 4096, 128 + (n / 64) % 64, 128 + n % 64]
  else [240 + n / 262144, 128 + (n / 4096) % 64, 128 + (n / 64) % 64, 128 + n % 64]

/-- Percent-encoding of one byte, uppercase hex as `encodeURIComponent`
produces. -/
def percentEncodeByte (b : Nat) : List Char :=
  ['%', hexDigitChar (b / 16), hexDigitChar (b % 16)]

/-- Encoding of one character under `encodeURIComponent`. -/
def encodeUriChar (c : Char) : List Char :=
  if uriUnreservedChar c then [c]
  else ((utf8BytesOf c.toNat).map percentEncodeByte).flatten

/-- Model of JavaScript `encodeURIComponent` over a character list. -/
def encodeUriComponentL (cs : List Char) : List Char :=
  (cs.map encodeUriChar).flatten

/-- Model of JavaScript `encodeURIComponent`. -/
def encodeUriComponent (s : String) : String := ⟨encodeUriComponentL s.data⟩

/-- Model of JavaScript `String.split('/')`: the maximal `'/'`-free segments,
including empty ones (`"".split('/')` is `[""]`). -/
def splitOnSlash : List Char → List (List Char)
  | [] => [[]]
  | c :: rest =>
    if c = '/' then [] :: splitOnSlash rest
    else
      match splitOnSlash rest with
      | [] => [[c]]
      | seg :: segs => (c :: seg) :: segs

/-- Model of `createBomRef` (generator.ts lines 415–424): names starting with
`'@'` are split at `'/'` into scope and package segments (segments beyond the
second are dropped, a missing second segment defaults to the empty string via
`?? ''`), each percent-encoded; other names are percent-encoded whole. -/
def createBomRef (name version : String) : String :=
  if name.data.head? = some '@' then
    ⟨"pkg:npm/".data ++
      encodeUriComponentL ((splitOnSlash name.data).headD []) ++
      '/' :: encodeUriComponentL (((splitOnSlash name.data).drop 1).headD []) ++
      '@' :: version.data⟩
  else ⟨"pkg:npm/".data ++ encodeUriComponentL name.data ++ '@' :: version.data⟩

/-- Model of `createKey` (generator.ts lines 426–428). -/
def createKey (name version : String) : String := name ++ "@" ++ version

/-- Characters the SPDX id sanitizer keeps: `[A-Za-z0-9-.]`. -/
def spdxSafeChar (c : Char) : Bool :=
  c.isAlpha || c.isDigit || c = '-' || c = '.'

/-- Collapse every run of consecutive `'-'` characters to a single `'-'`
(the second `replace` step of `createSpdxRef`, whose regex is dash-plus with
the global flag). -/
def squeezeDashes : List Char → List Char
  | [] => []
  | [c] => [c]
  | c1 :: c2 :: rest =>
    if c1 = '-' && c2 = '-' then squeezeDashes (c2 :: rest)
    else c1 :: squeezeDashes (c2 :: rest)

/-- Model of `createSpdxRef` (generator.ts lines 430–435).  The source first
replaces every run of characters outside `[A-Za-z0-9-.]` with a single `'-'`
and then collapses runs of `'-'` to a single `'-'`; replacing each offending
character individually and then collapsing dash runs yields the identical
string, since a replaced run becomes a dash run that the second step
collapses either way. -/
def createSpdxRef (name version : String) : String :=
  ⟨"SPDXRef-".data ++
    squeezeDashes (((name ++ "-" ++ version).data).map
      (fun c => if spdxSafeChar c then c else '-'))⟩

/-! SBOM data model (sbom/types.ts, scanner/types.ts) and generator
(sbom/generator.ts).  Fields the generator never reads (`scannedAt`,
`summary`, `epss`, `isTransitive`, `path`, `projectPath`, `outputFile`) are
omitted; `cvss` is a numeric score whose exact value is passed through
opaquely, modelled as `Nat` (only its presence/zero-ness steers control
flow, via JavaScript truthiness). -/

/-- Model of `Vulnerability` (scanner/types.ts). -/
structure Vulnerability where
  id : String
  severity : String
  package : String
  version : String
  patched : List String
  description : String
  references : List String
  cvss : Nat
deriving DecidableEq

/-- Model of `ScanResult` (scanner/types.ts), restricted to the fields the
SBOM generator reads. -/
structure ScanResult where
  vulnerabilities : List Vulnerability
  totalPackages : Nat
  dependencies : DependencyTree

/-- Model of `SbomFormat` (sbom/types.ts). -/
inductive SbomFormat where
  | cyclonedx : SbomFormat
  | spdx : SbomFormat
deriving DecidableEq

/-- Model of the optional `metadata` block of `SbomGenerateOptions`. -/
structure SbomMetadataOpts where
  supplier : Option String
  componentName : Option String
  componentVersion : Option String
deriving DecidableEq

/-- Model of `SbomGenerateOptions` (sbom/types.ts); optional booleans absent
from a `Partial` options object behave exactly as `false` in the generator,
so they are plain `Bool`. -/
structure SbomGenerateOptions where
  format : Option SbomFormat
  includeDevDependencies : Bool
  attachVulnerabilities : Bool
  metadata : Option SbomMetadataOpts
deriving DecidableEq

/-- Model of `PackageMetadata` (generator.ts lines 20–24). -/
structure PackageMetadata where
  info : PackageInfo
  bomRef : String
  spdxRef : String
deriving DecidableEq

/-- Model of `PackageMetadataMap` (generator.ts lines 26–29). -/
structure PackageMetadataMap where
  byKey : List (String × PackageMetadata)
  byBomRef : List (String × PackageMetadata)
deriving DecidableEq

/-- The metadata record built for one package (generator.ts lines
184–189). -/
def packageMetadataFor (pkg : PackageInfo) : PackageMetadata :=
  { info := pkg, bomRef := createBomRef pkg.name pkg.version,
    spdxRef := createSpdxRef pkg.name pkg.version }

/-- Model of `buildPackageMetadataMap` (generator.ts lines 179–195). -/
def buildPackageMetadataMap (packages : List PackageInfo) : PackageMetadataMap :=
  packages.foldl
    (fun maps pkg =>
      { byKey := alSet maps.byKey (createKey pkg.name pkg.version)
          (packageMetadataFor pkg),
        byBomRef := alSet maps.byBomRef (packageMetadataFor pkg).bomRef
          (packageMetadataFor pkg) })
    { byKey := [], byBomRef := [] }

/-- Model of `SbomStats` (sbom/types.ts). -/
structure SbomStats where
  totalComponents : Nat
  directDependencies : Nat
  devDependencies : Nat
deriving DecidableEq

/-- Model of `buildStats` (generator.ts lines 76–84). -/
def buildStats (packages : List PackageInfo) : SbomStats :=
  { totalComponents := packages.length,
    directDependencies := (packages.filter (fun pkg => pkg.isDirect)).length,
    devDependencies := (packages.filter (fun pkg => pkg.isDevDependency)).length }

/-- Version string of the tool itself (`package.json` `version`, outside
src/; its value is metadata passthrough and affects no claim). -/
def toolVersionString : String := "1.0.0"

/-- One entry of the CycloneDX `components` array. -/
structure CdxComponent where
  bomRef : String
  type : String
  name : String
  version : String
  purl : String
  scope : String
  properties : List (String × String)
deriving DecidableEq

/-- The CycloneDX `metadata.component` entry (generator.ts lines 161–177). -/
structure CdxRootComponent where
  bomRef : String
  type : String
  name : String
  version : String
  purl : String
  supplier : Option String
deriving DecidableEq

/-- One entry of the CycloneDX `dependencies` array. -/
structure CdxDependencyEntry where
  ref : String
  dependsOn : List String
deriving DecidableEq

/-- One entry of a CycloneDX vulnerability's `ratings` array. -/
structure CdxRating where
  severity : String
  score : Nat
  method : Option String
deriving DecidableEq

/-- One entry of the CycloneDX `vulnerabilities` array. -/
structure CdxVuln where
  id : String
  sourceName : String
  ratings : List CdxRating
  details : String
  affects : List String
  advisories : List String
deriving DecidableEq

/-- The CycloneDX document (generator.ts lines 99–126), with the `metadata`
block flattened into explicit fields. -/
structure CycloneDxBom where
  bomFormat : String
  specVersion : String
  serialNumber : String
  version : Nat
  timestamp : String
  toolVendor : String
  toolName : String
  toolVersion : String
  component : CdxRootComponent
  components : List CdxComponent
  dependencies : List CdxDependencyEntry
  vulnerabilities : Option (List CdxVuln)
deriving DecidableEq

/-- Model of `buildRootComponent` (generator.ts lines 161–177); the `?:`
on `options.metadata?.supplier` is JavaScript truthiness, so an empty
supplier string yields no supplier entry. -/
def buildRootComponent (tree : DependencyTree) (options : SbomGenerateOptions) :
    CdxRootComponent :=
  let componentName := (options.metadata.bind (fun m => m.componentName)).getD tree.name
  let componentVersion := (options.metadata.bind (fun m => m.componentVersion)).getD tree.version
  { bomRef := createBomRef componentName componentVersion,
    type := "application", name := componentName, version := componentVersion,
    purl := createBomRef componentName componentVersion,
    supplier :=
      match options.metadata.bind (fun m => m.supplier) with
      | some s => if s = "" then none else some s
      | none => none }

/-- Model of `buildComponentsArray` (generator.ts lines 197–219). -/
def buildComponentsArray (byKey : List (String × PackageMetadata)) :
    List CdxComponent :=
  (alValues byKey).map (fun metadata =>
    { bomRef := metadata.bomRef, type := "library", name := metadata.info.name,
      version := metadata.info.version, purl := metadata.bomRef,
      scope := if metadata.info.isDevDependency then "optional" else "required",
      properties := [("securesync:direct",
        if metadata.info.isDirect then "true" else "false")] })

/-- Model of JavaScript `Set.add` on an insertion-ordered set. -/
def addToSet (s : List String) (x : String) : List String :=
  if x ∈ s then s else s ++ [x]

/-- Recursion of `traverseNode` (generator.ts lines 235–250) flattened over
entry lists: per child, add the child's ref (from the child node's own
`name`/`version`) to the current node's set, ensure the child has an entry,
then descend into the child's children, then the remaining siblings. -/
def traverseEntries : DepEntries → String → List (String × List String) →
    List (String × List String)
  | .nil, _, g => g
  | .cons _key name version _resolved deps rest, nodeRef, g =>
    let childRef := createBomRef name version
    let g1 := alUpdate g nodeRef (fun s => addToSet s childRef)
    let g2 := if containsKey g1 childRef then g1 else g1 ++ [(childRef, [])]
    let g3 := traverseEntries deps childRef g2
    traverseEntries rest nodeRef g3

/-- Model of the generator-local `buildDependencyGraph` (generator.ts lines
221–233, `Map<string, Set<string>>`): the root ref (from the tree's own
name/version) starts with an empty set, then every top-level node is linked
and traversed exactly like a child of the root. -/
def buildDependencyGraphSb (t : DependencyTree) : List (String × List String) :=
  let rootRef := createBomRef t.name t.version
  traverseEntries t.dependencies rootRef [(rootRef, [])]

/-- Model of `buildDependencyEntries` (generator.ts lines 252–261). -/
def buildDependencyEntries (graph : List (String × List String)) :
    List CdxDependencyEntry :=
  graph.map (fun entry => { ref := entry.1, dependsOn := entry.2 })

/-- The fixed severity table (`ratingsMap`, generator.ts lines 267–272) with
the `?? 'unknown'` default. -/
def mapSeverity (s : String) : String :=
  if s = "low" then "low"
  else if s = "moderate" then "medium"
  else if s = "high" then "high"
  else if s = "critical" then "critical"
  else "unknown"

/-- JavaScript `String.includes` (substring test). -/
def strContainsSub (hay needle : String) : Bool :=
  decide (needle.data <:+: hay.data)

/-- The vulnerability `source.name` choice
(`vuln.references?.[0]?.includes('nvd') ? 'NVD' : 'SecureSync'`). -/
def vulnSourceName (references : List String) : String :=
  match references.head? with
  | some r => if strContainsSub r "nvd" then "NVD" else "SecureSync"
  | none => "SecureSync"

/-- Model of `buildCycloneDxVulnerabilities` (generator.ts lines 263–301).
The `.filter(Boolean)` over the one-element `ratings` array keeps its single
(always truthy) entry; `method` is present only when `vuln.cvss` is truthy,
i.e. non-zero. -/
def buildCycloneDxVulnerabilities (vulnerabilities : List Vulnerability)
    (byKey : List (String × PackageMetadata)) : List CdxVuln :=
  vulnerabilities.map (fun vuln =>
    let component := alLookup byKey (createKey vuln.package vuln.version)
    { id := vuln.id,
      sourceName := vulnSourceName vuln.references,
      ratings := [{ severity := mapSeverity vuln.severity, score := vuln.cvss,
                    method := if vuln.cvss ≠ 0 then some "CVSSv3" else none }],
      details := vuln.description,
      affects := match component with
        | some c => [c.bomRef]
        | none => [],
      advisories := vuln.references })

/-- Model of `buildCycloneDxBom` (generator.ts lines 86–127); `generatedAt`
is the ISO timestamp and `uuid` the fresh `randomUUID()` value, both explicit
parameters here. -/
def buildCycloneDxBom (scanResult : ScanResult) (generatedAt uuid : String)
    (options : SbomGenerateOptions) : CycloneDxBom :=
  let tree := scanResult.dependencies
  let packageMap := buildPackageMetadataMap tree.packages
  let graph := buildDependencyGraphSb tree
  { bomFormat := "CycloneDX", specVersion := "1.5",
    serialNumber := "urn:uuid:" ++ uuid, version := 1,
    timestamp := generatedAt,
    toolVendor := "SecureSync", toolName := "SecureSync",
    toolVersion := toolVersionString,
    component := buildRootComponent tree options,
    components := buildComponentsArray packageMap.byKey,
    dependencies := buildDependencyEntries graph,
    vulnerabilities :=
      if options.attachVulnerabilities && !scanResult.vulnerabilities.isEmpty then
        some (buildCycloneDxVulnerabilities scanResult.vulnerabilities packageMap.byKey)
      else none }

/-- One entry of an SPDX package's `externalRefs`. -/
structure SpdxExternalRef where
  referenceCategory : String
  referenceType : String
  referenceLocator : String
deriving DecidableEq

/-- One entry of the SPDX `packages` array; the root application package has
a `supplier` field and no `externalRefs`, library packages the reverse. -/
structure SpdxPackage where
  name : String
  SPDXID : String
  versionInfo : String
  supplier : Option String
  downloadLocation : String
  primaryPackagePurpose : String
  licenseConcluded : String
  licenseDeclared : String
  externalRefs : List SpdxExternalRef
deriving DecidableEq

/-- One entry of the SPDX `relationships` array. -/
structure SpdxRelationship where
  spdxElementId : String
  relationshipType : String
  relatedSpdxElement : String
deriving DecidableEq

/-- One entry of the SPDX `annotations` array (generator.ts lines 31–37). -/
structure SpdxAnnot where
  spdxElementId : String
  annotationType : String
  annotator : String
  comment : String
  annotationDate : String
deriving DecidableEq

/-- The SPDX document (generator.ts lines 144–158), with `creationInfo`
flattened into explicit fields. -/
structure SpdxDocument where
  SPDXID : String
  spdxVersion : String
  dataLicense : String
  name : String
  documentNamespace : String
  created : String
  creators : List String
  licenseListVersion : String
  packages : List SpdxPackage
  relationships : List SpdxRelationship
  annotations : List SpdxAnnot
deriving DecidableEq

/-- Model of `buildSpdxPackages` (generator.ts lines 303–345): one root
application package (override-aware name/version, truthiness-checked
supplier), then one library package per metadata-map value. -/
def buildSpdxPackages (tree : DependencyTree)
    (byKey : List (String × PackageMetadata))
    (options : SbomGenerateOptions) : List SpdxPackage :=
  let rootName := (options.metadata.bind (fun m => m.componentName)).getD tree.name
  let rootVersion := (options.metadata.bind (fun m => m.componentVersion)).getD tree.version
  { name := rootName, SPDXID := createSpdxRef rootName rootVersion,
    versionInfo := rootVersion,
    supplier := some (match options.metadata.bind (fun m => m.supplier) with
      | some s => if s = "" then "NOASSERTION" else "Organization: " ++ s
      | none => "NOASSERTION"),
    downloadLocation := "NOASSERTION", primaryPackagePurpose := "APPLICATION",
    licenseConcluded := "NOASSERTION", licenseDeclared := "NOASSERTION",
    externalRefs := [] } ::
  (alValues byKey).map (fun metadata =>
    { name := metadata.info.name, SPDXID := metadata.spdxRef,
      versionInfo := metadata.info.version, supplier := none,
      downloadLocation := "NOASSERTION", primaryPackagePurpose := "LIBRARY",
      licenseConcluded := "NOASSERTION", licenseDeclared := "NOASSERTION",
      externalRefs := [⟨"PACKAGE-MANAGER", "purl",
        createBomRef metadata.info.name metadata.info.version⟩] })

/-- Model of `buildSpdxRelationships` (generator.ts lines 347–389): the
`DESCRIBES` entry first, then one `DEPENDS_ON` entry per graph edge whose
both endpoints resolve (the root bom-ref maps to the root SPDX ref;
unresolvable endpoints are skipped silently). -/
def buildSpdxRelationships (tree : DependencyTree)
    (byBomRef : List (String × PackageMetadata))
    (graph : List (String × List String))
    (options : SbomGenerateOptions) : List SpdxRelationship :=
  let rootName := (options.metadata.bind (fun m => m.componentName)).getD tree.name
  let rootVersion := (options.metadata.bind (fun m => m.componentVersion)).getD tree.version
  let rootRef := createSpdxRef rootName rootVersion
  let rootBomRef := createBomRef tree.name tree.version
  { spdxElementId := "SPDXRef-DOCUMENT", relationshipType := "DESCRIBES",
    relatedSpdxElement := rootRef } ::
  (graph.map (fun entry =>
    let parentSpdx :=
      if entry.1 = rootBomRef then some rootRef
      else (alLookup byBomRef entry.1).map (fun m => m.spdxRef)
    match parentSpdx with
    | none => []
    | some ps =>
      entry.2.filterMap (fun child =>
        (alLookup byBomRef child).map (fun m =>
          ({ spdxElementId := ps, relationshipType := "DEPENDS_ON",
             relatedSpdxElement := m.spdxRef } : SpdxRelationship))))).flatten

/-- The annotation built for one resolvable finding (generator.ts lines
404–410). -/
def mkSpdxAnnot (vuln : Vulnerability) (metadata : PackageMetadata)
    (generatedAt : String) : SpdxAnnot :=
  { spdxElementId := metadata.spdxRef, annotationType := "REVIEW",
    annotator := "Tool: SecureSync",
    comment := vuln.id ++ " (" ++ vuln.severity ++ ") - " ++ vuln.description,
    annotationDate := generatedAt }

/-- Model of `buildSpdxAnnotations` (generator.ts lines 391–413): map each
finding to an annotation or `null` depending on whether its dedup key
resolves, then filter the `null`s out (`reduceOption`). -/
def buildSpdxAnnotations (vulnerabilities : List Vulnerability)
    (byKey : List (String × PackageMetadata)) (generatedAt : String) :
    List SpdxAnnot :=
  (vulnerabilities.map (fun vuln =>
    (alLookup byKey (createKey vuln.package vuln.version)).map
      (fun m => mkSpdxAnnot vuln m generatedAt))).reduceOption

/-- Model of `buildSpdxDocument` (generator.ts lines 129–159). -/
def buildSpdxDocument (scanResult : ScanResult) (generatedAt uuid : String)
    (options : SbomGenerateOptions) : SpdxDocument :=
  let tree := scanResult.dependencies
  let packageMap := buildPackageMetadataMap tree.packages
  let graph := buildDependencyGraphSb tree
  { SPDXID := "SPDXRef-DOCUMENT", spdxVersion := "SPDX-2.3",
    dataLicense := "CC0-1.0",
    name := ((options.metadata.bind (fun m => m.componentName)).getD tree.name) ++ " SBOM",
    documentNamespace := "urn:uuid:" ++ uuid,
    created := generatedAt,
    creators := ["Tool: SecureSync " ++ toolVersionString],
    licenseListVersion := "3.23",
    packages := buildSpdxPackages tree packageMap.byKey options,
    relationships := buildSpdxRelationships tree packageMap.byBomRef graph options,
    annotations :=
      if options.attachVulnerabilities then
        buildSpdxAnnotations scanResult.vulnerabilities packageMap.byKey generatedAt
      else [] }

/-- The format-tagged generated document. -/
inductive SbomDocument where
  | cdx (bom : CycloneDxBom) : SbomDocument
  | spdx (doc : SpdxDocument) : SbomDocument
deriving DecidableEq

/-- Whether the rendered document carries a `vulnerabilities` key (only a
CycloneDX document can). -/
def SbomDocument.hasVulnerabilitiesKey : SbomDocument → Bool
  | .cdx bom => bom.vulnerabilities.isSome
  | .spdx _ => false

/-- The annotations of a rendered document (empty for CycloneDX). -/
def SbomDocument.annotations : SbomDocument → List SpdxAnnot
  | .cdx _ => []
  | .spdx doc => doc.annotations

/-- Model of `SbomGenerationResult` (sbom/types.ts), without the I/O-only
`outputPath`. -/
structure SbomGenerationResult where
  format : SbomFormat
  document : SbomDocument
  generatedAt : String
  stats : SbomStats
  vulnerabilities : List Vulnerability
  embeddedVulnerabilities : Bool

/-- The scan-free core of `generateSbom` (generator.ts lines 48–73): format
defaulting, stats, document dispatch, the `embeddedVulnerabilities` flag
(`Boolean(options.attachVulnerabilities && scanResult.vulnerabilities.length
> 0)`), and result assembly.  Project scanning and optional file output
around it are I/O and are outside the embedded core. -/
def generateSbomCore (scanResult : ScanResult) (options : SbomGenerateOptions)
    (generatedAt uuid : String) : SbomGenerationResult :=
  let format := options.format.getD SbomFormat.cyclonedx
  { format := format,
    document :=
      match format with
      | SbomFormat.cyclonedx =>
        SbomDocument.cdx (buildCycloneDxBom scanResult generatedAt uuid options)
      | SbomFormat.spdx =>
        SbomDocument.spdx (buildSpdxDocument scanResult generatedAt uuid options),
    generatedAt := generatedAt,
    stats := buildStats scanResult.dependencies.packages,
    vulnerabilities := scanResult.vulnerabilities,
    embeddedVulnerabilities :=
      options.attachVulnerabilities && !scanResult.vulnerabilities.isEmpty }

/-! Specification-level predicates used by the theorems. -/

/-- Reachability in a node table by following `children` links from a root
set. -/
inductive ReachableIn (nodes : List (String × GraphNode)) (roots : List String) :
    String → Prop where
  | root (r : String) (h : r ∈ roots) : ReachableIn nodes roots r
  | child (p c : String) (node : GraphNode) (hp : ReachableIn nodes roots p)
      (hl : alLookup nodes p = some node) (hc : c ∈ node.children) :
      ReachableIn nodes roots c

/-- Descending child-link sequences that end at the first node whose `name`
matches the target: every step follows a recorded child link between nodes
present in the table, intermediate nodes do not bear the target name, and
the final one does. -/
inductive FirstMatchDesc (g : DependencyGraph) (target : String) :
    String → List String → Prop where
  | found (cur childId : String) (node childNode : GraphNode)
      (hcur : alLookup g.nodes cur = some node)
      (hmem : childId ∈ node.children)
      (hchild : alLookup g.nodes childId = some childNode)
      (hname : childNode.name = target) :
      FirstMatchDesc g target cur [childId]
  | step (cur childId : String) (node childNode : GraphNode) (rest : List String)
      (hcur : alLookup g.nodes cur = some node)
      (hmem : childId ∈ node.children)
      (hchild : alLookup g.nodes childId = some childNode)
      (hname : ¬ childNode.name = target)
      (htail : FirstMatchDesc g target childId rest) :
      FirstMatchDesc g target cur (childId :: rest)

/-- Frame relation between an old and a new table entry: every field except
`children` is unchanged, and the children list only grows. -/
def NodeFrameOk (n n' : GraphNode) : Prop :=
  n'.id = n.id ∧ n'.name = n.name ∧ n'.version = n.version ∧
  n'.depth = n.depth ∧ n'.parent = n.parent ∧
  n'.isDevDependency = n.isDevDependency ∧ n.children ⊆ n'.children

/-- A node table extends another: every stored node is still stored, frame
fields intact, children only appended to. -/
def MapExtends (ns ns' : List (String × GraphNode)) : Prop :=
  ∀ k n, alLookup ns k = some n →
    ∃ n', alLookup ns' k = some n' ∧ NodeFrameOk n n'

/-- Builder invariant: every recorded child id and edge endpoint has a table
entry, and every stored node is reachable from the root set by children
links. -/
def GoodState (roots : List String) (st : BuildState) : Prop :=
  (∀ e ∈ st.nodes, ∀ c ∈ e.2.children, containsKey st.nodes c = true) ∧
  (∀ ed ∈ st.edges, containsKey st.nodes ed.1 = true ∧
    containsKey st.nodes ed.2 = true) ∧
  (∀ e ∈ st.nodes, ReachableIn st.nodes roots e.1)

/-- The dedup keys of the top-level entries, i.e. the root ids `buildGraph`
records, in declaration order. -/
def rootKeysOf : DepEntries → List String
  | .nil => []
  | .cons key _name version _resolved _deps rest =>
    dedupKey key version :: rootKeysOf rest

/-- Sample diamond tree: `a@1.0.0` and `c@1.0.0` both depend on `b@2.0.0`. -/
def diamondTree : DependencyTree :=
  { name := "demo", version := "1.0.0",
    dependencies :=
      .cons "a" "a" "1.0.0" ""
        (.cons "b" "b" "2.0.0" "" .nil .nil)
        (.cons "c" "c" "1.0.0" ""
          (.cons "b" "b" "2.0.0" "" .nil .nil) .nil),
    packages :=
      [⟨"a", "1.0.0", false, true⟩, ⟨"c", "1.0.0", false, true⟩,
       ⟨"b", "2.0.0", false, false⟩] }

/-- Tree exhibiting a node with the target name nested below another node
with the same name: root `a@1.0.0` (name `a`) has child `a@2.0.0`
(also name `a`). -/
def nestedNameTree : DependencyTree :=
  { name := "demo", version := "1.0.0",
    dependencies := .cons "a" "a" "1.0.0" "" (.cons "a" "a" "2.0.0" "" .nil .nil) .nil,
    packages := [⟨"a", "1.0.0", false, true⟩, ⟨"a", "2.0.0", false, false⟩] }

/-- A concrete graph node used to exercise the first-seen-wins behaviour. -/
def sampleNode : GraphNode :=
  { id := "x@1.0.0", name := "x", version := "1.0.0", depth := 0,
    parent := none, children := [], vulnerabilities := 0,
    isDevDependency := false }

/-- A build state already containing `sampleNode` under its key. -/
def sampleState : BuildState :=
  { nodes := [("x@1.0.0", sampleNode)], edges := [] }

/-- A structurally distinct `DependencyNode` occurrence denoting the same
package as `sampleNode`, with one child of its own. -/
def sampleDep : DependencyNode :=
  { name := "x", version := "1.0.0", resolved := "",
    dependencies := .cons "y" "y" "2.0.0" "" .nil .nil }

/-- Tree whose two distinct `(name, version)` pairs render the same dedup
key: `("a", "b@c")` and `("a@b", "c")` both yield `"a@b@c"`. -/
def atCollisionTree : DependencyTree :=
  { name := "demo", version := "1.0.0",
    dependencies :=
      .cons "a" "a" "b@c" "" .nil
        (.cons "a@b" "a@b" "c" "" .nil .nil),
    packages := [⟨"a", "b@c", false, true⟩, ⟨"a@b", "c", false, true⟩] }

/-- Two packages whose sanitized SPDX ids collide: `a/b@1.0.0` and
`a-b@1.0.0` both sanitize to `SPDXRef-a-b-1.0.0`. -/
def spdxCollisionTree : DependencyTree :=
  { name := "demo", version := "1.0.0",
    dependencies :=
      .cons "a/b" "a/b" "1.0.0" "" .nil
        (.cons "a-b" "a-b" "1.0.0" "" .nil .nil),
    packages := [⟨"a/b", "1.0.0", false, true⟩, ⟨"a-b", "1.0.0", false, true⟩] }

/-- Default option block: CycloneDX, nothing attached, no overrides. -/
def defaultOpts : SbomGenerateOptions :=
  { format := none, includeDevDependencies := false,
    attachVulnerabilities := false, metadata := none }

/-- Options requesting SPDX output with vulnerability attachment. -/
def spdxAttachOpts : SbomGenerateOptions :=
  { format := some SbomFormat.spdx, includeDevDependencies := false,
    attachVulnerabilities := true, metadata := none }

/-- A finding against `lodash@4.17.21` (the end-to-end scenario of the
spec). -/
def sampleVuln : Vulnerability :=
  { id := "CVE-2024-0001", severity := "high", package := "lodash",
    version := "4.17.21", patched := ["4.17.22"],
    description := "Prototype pollution",
    references := ["https://nvd.nist.gov/vuln/detail/CVE-2024-0001"],
    cvss := 8 }

/-- A finding whose `(package, version)` matches nothing in
`diamondTree`. -/
def orphanVuln : Vulnerability :=
  { id := "CVE-2024-0002", severity := "low", package := "ghost",
    version := "9.9.9", patched := [], description := "missing",
    references := [], cvss := 0 }

/-- Scan result over the diamond tree carrying only the orphan finding. -/
def orphanScan : ScanResult :=
  { vulnerabilities := [orphanVuln], totalPackages := 3,
    dependencies := diamondTree }

/-! Association-list lemmas. -/

theorem alLookup_append {α : Type} (l₁ l₂ : List (String × α)) (k : String) :
    alLookup (l₁ ++ l₂) k =
      match alLookup l₁ k with
      | some v => some v
      | none => alLookup l₂ k := by
  induction l₁ with
  | nil => simp [alLookup]
  | cons e rest ih =>
    obtain ⟨a, v⟩ := e
    by_cases h : a = k <;> simp [alLookup, h, ih]

theorem alLookup_append_left {α : Type} {l₁ : List (String × α)} {k : String}
    {v : α} (l₂ : List (String × α)) (h : alLookup l₁ k = some v) :
    alLookup (l₁ ++ l₂) k = some v := by
  rw [alLookup_append, h]

theorem alLookup_alUpdate {α : Type} (l : List (String × α)) (key k : String)
    (f : α → α) :
    alLookup (alUpdate l key f) k =
      if key = k then (alLookup l k).map f else alLookup l k := by
  induction l with
  | nil => simp [alLookup, alUpdate]
  | cons e rest ih =>
    obtain ⟨a, v⟩ := e
    by_cases hak : a = key
    · subst hak
      by_cases hk : a = k
      · subst hk
        simp [alUpdate, alLookup]
      · simp [alUpdate, alLookup, hk, ih]
    · by_cases hk : a = k
      · subst hk
        have hkk : ¬ key = a := fun h => hak h.symm
        simp [alUpdate, alLookup, hak, hkk]
      · simp [alUpdate, alLookup, hak, hk, ih]

theorem alUpdate_map_fst {α : Type} (l : List (String × α)) (key : String)
    (f : α → α) : (alUpdate l key f).map Prod.fst = l.map Prod.fst := by
  induction l with
  | nil => rfl
  | cons e rest ih =>
    obtain ⟨a, v⟩ := e
    by_cases h : a = key <;> simp [alUpdate, h, ih]

theorem containsKey_iff_mem {α : Type} (l : List (String × α)) (k : String) :
    containsKey l k = true ↔ k ∈ l.map Prod.fst := by
  induction l with
  | nil => simp [containsKey, alLookup]
  | cons e rest ih =>
    obtain ⟨a, v⟩ := e
    by_cases h : a = k
    · subst h
      simp [containsKey, alLookup]
    · have h' : ¬ k = a := fun hh => h hh.symm
      simp only [containsKey, alLookup, h, if_false, List.map_cons,
        List.mem_cons]
      rw [show (alLookup rest k).isSome = containsKey rest k from rfl, ih]
      simp [h']

theorem mem_of_alLookup_eq_some {α : Type} {l : List (String × α)} {k : String}
    {v : α} (h : alLookup l k = some v) : (k, v) ∈ l := by
  induction l with
  | nil => simp [alLookup] at h
  | cons e rest ih =>
    obtain ⟨a, w⟩ := e
    by_cases hak : a = k
    · subst hak
      simp [alLookup] at h
      simp [h]
    · simp [alLookup, hak] at h
      simp [ih h]

/-! Frame/extension machinery for the node table. -/

theorem nodeFrameOk_refl (n : GraphNode) : NodeFrameOk n n :=
  ⟨rfl, rfl, rfl, rfl, rfl, rfl, fun _ h => h⟩

theorem nodeFrameOk_trans {n₁ n₂ n₃ : GraphNode} (h₁ : NodeFrameOk n₁ n₂)
    (h₂ : NodeFrameOk n₂ n₃) : NodeFrameOk n₁ n₃ := by
  obtain ⟨a1, a2, a3, a4, a5, a6, a7⟩ := h₁
  obtain ⟨b1, b2, b3, b4, b5, b6, b7⟩ := h₂
  exact ⟨b1.trans a1, b2.trans a2, b3.trans a3, b4.trans a4, b5.trans a5,
    b6.trans a6, fun x hx => b7 (a7 hx)⟩

theorem mapExtends_refl (ns : List (String × GraphNode)) : MapExtends ns ns :=
  fun _ n h => ⟨n, h, nodeFrameOk_refl n⟩

theorem mapExtends_trans {ns₁ ns₂ ns₃ : List (String × GraphNode)}
    (h₁ : MapExtends ns₁ ns₂) (h₂ : MapExtends ns₂ ns₃) : MapExtends ns₁ ns₃ := by
  intro k n hl
  obtain ⟨n', hl', hf'⟩ := h₁ k n hl
  obtain ⟨n'', hl'', hf''⟩ := h₂ k n' hl'
  exact ⟨n'', hl'', nodeFrameOk_trans hf' hf''⟩

theorem mapExtends_append (ns l : List (String × GraphNode)) :
    MapExtends ns (ns ++ l) :=
  fun _ n h => ⟨n, alLookup_append_left l h, nodeFrameOk_refl n⟩

theorem mapExtends_update_children (ns : List (String × GraphNode))
    (p c : String) :
    MapExtends ns
      (alUpdate ns p (fun n => { n with children := n.children ++ [c] })) := by
  intro k n h
  rw [alLookup_alUpdate]
  by_cases hp : p = k
  · subst hp
    refine ⟨{ n with children := n.children ++ [c] }, by simp [h], ?_⟩
    exact ⟨rfl, rfl, rfl, rfl, rfl, rfl, List.subset_append_left _ _⟩
  · exact ⟨n, by simp [hp, h], nodeFrameOk_refl n⟩

/-! Extension facts for each builder step. -/

theorem addNodeIfAbsent_extends (name version nodeId : String) (depth : Nat)
    (parent : Option String) (isDev : Bool) (st : BuildState) :
    MapExtends st.nodes
      (addNodeIfAbsent name version nodeId depth parent isDev st).nodes := by
  unfold addNodeIfAbsent
  split
  · exact mapExtends_refl _
  · exact mapExtends_append _ _

theorem linkParent_extends (nodeId : String) (parent : Option String)
    (st : BuildState) :
    MapExtends st.nodes (linkParent nodeId parent st).nodes := by
  cases parent with
  | none => exact mapExtends_refl _
  | some p =>
    simp only [linkParent]
    cases h : alLookup st.nodes p with
    | none => exact mapExtends_refl _
    | some parentNode =>
      by_cases hm : nodeId ∈ parentNode.children
      · simp only [if_pos hm]
        exact mapExtends_refl _
      · simp only [if_neg hm]
        exact mapExtends_update_children _ _ _

theorem visitNode_extends (name version nodeId : String) (depth : Nat)
    (parent : Option String) (isDev : Bool) (st : BuildState) :
    MapExtends st.nodes
      (visitNode name version nodeId depth parent isDev st).nodes :=
  mapExtends_trans
    (addNodeIfAbsent_extends name version nodeId depth parent isDev st)
    (linkParent_extends nodeId parent _)

theorem buildEntriesRec_extends (e : DepEntries) :
    ∀ (parentId : String) (depth : Nat) (isDev : Bool) (st : BuildState),
      MapExtends st.nodes (buildEntriesRec e parentId depth isDev st).nodes := by
  induction e with
  | nil => intro parentId depth isDev st; exact mapExtends_refl _
  | cons key name version resolved deps rest ihd ihr =>
    intro parentId depth isDev st
    simp only [buildEntriesRec]
    exact mapExtends_trans
      (visitNode_extends name version (dedupKey key version) (depth + 1)
        (some parentId) isDev st)
      (mapExtends_trans (ihd _ _ _ _) (ihr _ _ _ _))

theorem buildRootsRec_extends (e : DepEntries) :
    ∀ (st : BuildState) (acc : List String),
      MapExtends st.nodes (buildRootsRec e st acc).1.nodes := by
  induction e with
  | nil => intro st acc; exact mapExtends_refl _
  | cons key name version resolved deps rest ihd ihr =>
    intro st acc
    simp only [buildRootsRec]
    exact mapExtends_trans
      (visitNode_extends name version (dedupKey key version) 0 none false st)
      (mapExtends_trans (buildEntriesRec_extends deps _ _ _ _) (ihr _ _))

theorem buildNodeRecursive_extends (dep : DependencyNode) (nodeId : String)
    (depth : Nat) (parent : Option String) (isDev : Bool) (st : BuildState) :
    MapExtends st.nodes
      (buildNodeRecursive dep nodeId depth parent isDev st).nodes :=
  mapExtends_trans
    (visitNode_extends dep.name dep.version nodeId depth parent isDev st)
    (buildEntriesRec_extends dep.dependencies _ _ _ _)

/-- Claim C5: during graph construction, a re-encountered dedup key keeps
its stored `depth`, `parent` and `isDevDependency` (and identity fields)
unchanged through the revisit; its children list is only ever appended to
(the edge list and the deduplicated child bookkeeping are the only
updates). -/
theorem buildNodeRecursive_first_seen_wins (dep : DependencyNode)
    (nodeId : String) (depth : Nat) (parent : Option String) (isDev : Bool)
    (st : BuildState) (n : GraphNode)
    (h : alLookup st.nodes nodeId = some n) :
    ∃ n', alLookup (buildNodeRecursive dep nodeId depth parent isDev st).nodes
        nodeId = some n' ∧
      n'.depth = n.depth ∧ n'.parent = n.parent ∧
      n'.isDevDependency = n.isDevDependency ∧ n'.id = n.id ∧
      n'.name = n.name ∧ n'.version = n.version ∧
      n.children ⊆ n'.children := by
  obtain ⟨n', hl, hid, hname, hver, hdepth, hpar, hdev, hch⟩ :=
    buildNodeRecursive_extends dep nodeId depth parent isDev st nodeId n h
  exact ⟨n', hl, hdepth, hpar, hdev, hid, hname, hver, hch⟩

/-- Key-set and key-uniqueness facts for the builder. -/
theorem addNodeIfAbsent_containsKey (name version nodeId : String)
    (depth : Nat) (parent : Option String) (isDev : Bool) (st : BuildState)
    (k : String) :
    containsKey (addNodeIfAbsent name version nodeId depth parent isDev
        st).nodes k = true ↔
      containsKey st.nodes k = true ∨ k = nodeId := by
  unfold addNodeIfAbsent
  split
  · next h =>
    constructor
    · exact Or.inl
    · rintro (hk | rfl)
      · exact hk
      · exact h
  · simp [containsKey_iff_mem]

theorem linkParent_map_fst (nodeId : String) (parent : Option String)
    (st : BuildState) :
    (linkParent nodeId parent st).nodes.map Prod.fst =
      st.nodes.map Prod.fst := by
  cases parent with
  | none => rfl
  | some p =>
    simp only [linkParent]
    cases h : alLookup st.nodes p with
    | none => rfl
    | some parentNode =>
      by_cases hm : nodeId ∈ parentNode.children
      · simp only [if_pos hm]
      · simp only [if_neg hm]
        exact alUpdate_map_fst _ _ _

theorem linkParent_containsKey (nodeId : String) (parent : Option String)
    (st : BuildState) (k : String) :
    containsKey (linkParent nodeId parent st).nodes k = true ↔
      containsKey st.nodes k = true := by
  rw [containsKey_iff_mem, linkParent_map_fst, ← containsKey_iff_mem]

theorem visitNode_containsKey (name version nodeId : String) (depth : Nat)
    (parent : Option String) (isDev : Bool) (st : BuildState) (k : String) :
    containsKey (visitNode name version nodeId depth parent isDev st).nodes k
        = true ↔
      containsKey st.nodes k = true ∨ k = nodeId := by
  unfold visitNode
  rw [linkParent_containsKey, addNodeIfAbsent_containsKey]

theorem buildEntriesRec_containsKey (e : DepEntries) :
    ∀ (parentId : String) (depth : Nat) (isDev : Bool) (st : BuildState)
      (k : String),
      containsKey (buildEntriesRec e parentId depth isDev st).nodes k = true ↔
        containsKey st.nodes k = true ∨ k ∈ entOccKeys e := by
  induction e with
  | nil => intro parentId depth isDev st k; simp [buildEntriesRec, entOccKeys]
  | cons key name version resolved deps rest ihd ihr =>
    intro parentId depth isDev st k
    simp only [buildEntriesRec]
    rw [ihr, ihd, visitNode_containsKey]
    simp only [entOccKeys, List.mem_cons, List.mem_append]
    tauto

theorem buildRootsRec_containsKey (e : DepEntries) :
    ∀ (st : BuildState) (acc : List String) (k : String),
      containsKey (buildRootsRec e st acc).1.nodes k = true ↔
        containsKey st.nodes k = true ∨ k ∈ entOccKeys e := by
  induction e with
  | nil => intro st acc k; simp [buildRootsRec, entOccKeys]
  | cons key name version resolved deps rest ihd ihr =>
    intro st acc k
    simp only [buildRootsRec]
    rw [ihr, buildEntriesRec_containsKey, visitNode_containsKey]
    simp only [entOccKeys, List.mem_cons, List.mem_append]
    tauto

theorem addNodeIfAbsent_nodup (name version nodeId : String) (depth : Nat)
    (parent : Option String) (isDev : Bool) (st : BuildState)
    (h : (st.nodes.map Prod.fst).Nodup) :
    ((addNodeIfAbsent name version nodeId depth parent isDev
        st).nodes.map Prod.fst).Nodup := by
  unfold addNodeIfAbsent
  split
  · exact h
  · next hab =>
    have hfree : nodeId ∉ st.nodes.map Prod.fst := fun hm =>
      hab ((containsKey_iff_mem _ _).mpr hm)
    simp only [List.map_append, List.map_cons, List.map_nil]
    refine List.Nodup.append h (List.nodup_singleton _) ?_
    intro a ha hb
    rw [List.mem_singleton] at hb
    subst hb
    exact hfree ha

theorem visitNode_nodup (name version nodeId : String) (depth : Nat)
    (parent : Option String) (isDev : Bool) (st : BuildState)
    (h : (st.nodes.map Prod.fst).Nodup) :
    ((visitNode name version nodeId depth parent isDev
        st).nodes.map Prod.fst).Nodup := by
  unfold visitNode
  rw [linkParent_map_fst]
  exact addNodeIfAbsent_nodup name version nodeId depth parent isDev st h

theorem buildEntriesRec_nodup (e : DepEntries) :
    ∀ (parentId : String) (depth : Nat) (isDev : Bool) (st : BuildState),
      (st.nodes.map Prod.fst).Nodup →
      ((buildEntriesRec e parentId depth isDev st).nodes.map Prod.fst).Nodup := by
  induction e with
  | nil => intro parentId depth isDev st h; exact h
  | cons key name version resolved deps rest ihd ihr =>
    intro parentId depth isDev st h
    simp only [buildEntriesRec]
    exact ihr _ _ _ _ (ihd _ _ _ _ (visitNode_nodup _ _ _ _ _ _ _ h))

theorem buildRootsRec_nodup (e : DepEntries) :
    ∀ (st : BuildState) (acc : List String),
      (st.nodes.map Prod.fst).Nodup →
      ((buildRootsRec e st acc).1.nodes.map Prod.fst).Nodup := by
  induction e with
  | nil => intro st acc h; exact h
  | cons key name version resolved deps rest ihd ihr =>
    intro st acc h
    simp only [buildRootsRec]
    exact ihr _ _ (buildEntriesRec_nodup _ _ _ _ _ (visitNode_nodup _ _ _ _ _ _ _ h))

theorem buildGraph_containsKey (t : DependencyTree) (k : String) :
    containsKey (buildGraph t).nodes k = true ↔
      k ∈ entOccKeys t.dependencies := by
  show containsKey (buildRootsRec t.dependencies ⟨[], []⟩ []).1.nodes k = true ↔ _
  rw [buildRootsRec_containsKey]
  simp [containsKey, alLookup]

theorem buildGraph_nodupKeys (t : DependencyTree) :
    ((buildGraph t).nodes.map Prod.fst).Nodup :=
  buildRootsRec_nodup t.dependencies ⟨[], []⟩ [] List.nodup_nil

/-- Under well-naming, occurrence keys are the rendered occurrence pairs. -/
theorem entOccKeys_eq_of_wellNamed (e : DepEntries)
    (h : entWellNamed e = true) :
    entOccKeys e = (entOccPairs e).map (fun pr => dedupKey pr.1 pr.2) := by
  induction e with
  | nil => rfl
  | cons key name version resolved deps rest ihd ihr =>
    simp only [entWellNamed, Bool.and_eq_true, beq_iff_eq] at h
    obtain ⟨⟨hkey, hdeps⟩, hrest⟩ := h
    simp [entOccKeys, entOccPairs, hkey, ihd hdeps, ihr hrest]

theorem entOccPairs_atFree (e : DepEntries)
    (h : entVersionsAtFree e = true) :
    ∀ pr ∈ entOccPairs e, ¬ '@' ∈ pr.2.data := by
  induction e with
  | nil => intro pr hpr; simp [entOccPairs] at hpr
  | cons key name version resolved deps rest ihd ihr =>
    simp only [entVersionsAtFree, Bool.and_eq_true, Bool.not_eq_true',
      decide_eq_false_iff_not] at h
    obtain ⟨⟨hv, hdeps⟩, hrest⟩ := h
    intro pr hpr
    simp only [entOccPairs, List.mem_cons, List.mem_append] at hpr
    rcases hpr with rfl | hpr | hpr
    · exact hv
    · exact ihd hdeps pr hpr
    · exact ihr hrest pr hpr

/-- Splitting an `'@'`-separated concatenation whose right parts are
`'@'`-free is unambiguous. -/
theorem append_at_inj (a b c d : List Char) (hb : '@' ∉ b) (hd : '@' ∉ d)
    (h : a ++ '@' :: b = c ++ '@' :: d) : a = c ∧ b = d := by
  induction a generalizing c with
  | nil =>
    cases c with
    | nil =>
      simp only [List.nil_append, List.cons.injEq] at h
      exact ⟨rfl, h.2⟩
    | cons x c' =>
      simp only [List.nil_append, List.cons_append, List.cons.injEq] at h
      exfalso
      apply hb
      rw [h.2]
      simp
  | cons x a' ih =>
    cases c with
    | nil =>
      simp only [List.cons_append, List.nil_append, List.cons.injEq] at h
      exfalso
      apply hd
      rw [← h.2]
      simp
    | cons y c' =>
      simp only [List.cons_append, List.cons.injEq] at h
      obtain ⟨rfl, h'⟩ := h
      obtain ⟨h1, h2⟩ := ih c' h'
      exact ⟨by rw [h1], h2⟩

/-- The dedup key is injective on pairs whose versions contain no `'@'`. -/
theorem dedupKey_inj {n1 v1 n2 v2 : String} (h1 : ¬ '@' ∈ v1.data)
    (h2 : ¬ '@' ∈ v2.data) (h : dedupKey n1 v1 = dedupKey n2 v2) :
    n1 = n2 ∧ v1 = v2 := by
  unfold dedupKey at h
  have hd : n1.data ++ '@' :: v1.data = n2.data ++ '@' :: v2.data := by
    have hh := congrArg String.data h
    simpa [String.data_append] using hh
  obtain ⟨ha, hb⟩ := append_at_inj _ _ _ _ h1 h2 hd
  exact ⟨String.ext ha, String.ext hb⟩

/-- Deduplicating rendered keys of `'@'`-free-version pairs deduplicates the
pairs. -/
theorem dedup_length_map_dedupKey (l : List (String × String))
    (h : ∀ pr ∈ l, ¬ '@' ∈ pr.2.data) :
    ((l.map (fun pr => dedupKey pr.1 pr.2)).dedup).length = l.dedup.length := by
  induction l with
  | nil => rfl
  | cons pr l ih =>
    have hpr := h pr (List.mem_cons_self pr l)
    have hl : ∀ q ∈ l, ¬ '@' ∈ q.2.data := fun q hq =>
      h q (List.mem_cons_of_mem pr hq)
    have hmem : dedupKey pr.1 pr.2 ∈ l.map (fun q => dedupKey q.1 q.2) ↔
        pr ∈ l := by
      constructor
      · intro hm
        obtain ⟨q, hq, he⟩ := List.mem_map.mp hm
        obtain ⟨e1, e2⟩ := dedupKey_inj (hl q hq) hpr he
        have : q = pr := Prod.ext e1 e2
        rw [← this]
        exact hq
      · intro hm
        exact List.mem_map_of_mem _ hm
    by_cases hc : pr ∈ l
    · rw [List.map_cons, List.dedup_cons_of_mem (hmem.mpr hc),
        List.dedup_cons_of_mem hc, ih hl]
    · rw [List.map_cons,
        List.dedup_cons_of_not_mem (fun hm => hc (hmem.mp hm)),
        List.dedup_cons_of_not_mem hc]
      simp [ih hl]

/-- Claim C1 (amended): under the claim's well-naming precondition and with
`'@'`-free version strings, the node table has exactly one entry per
distinct `(name, version)` pair of the tree: its keys are unique, a key is
present exactly when some occurrence renders to it, and the table size
equals the deduplicated pair count. -/
theorem buildGraph_nodes_dedup (t : DependencyTree)
    (h1 : treeWellNamed t = true) (h2 : treeVersionsAtFree t = true) :
    ((buildGraph t).nodes.map Prod.fst).Nodup ∧
    (∀ k, containsKey (buildGraph t).nodes k = true ↔
      k ∈ (treeOccPairs t).map (fun pr => dedupKey pr.1 pr.2)) ∧
    (buildGraph t).nodes.length = ((treeOccPairs t).dedup).length := by
  have hkeys : ∀ k, containsKey (buildGraph t).nodes k = true ↔
      k ∈ (treeOccPairs t).map (fun pr => dedupKey pr.1 pr.2) := by
    intro k
    rw [buildGraph_containsKey, entOccKeys_eq_of_wellNamed _ h1]
    rfl
  refine ⟨buildGraph_nodupKeys t, hkeys, ?_⟩
  have hlen1 : (buildGraph t).nodes.length =
      ((buildGraph t).nodes.map Prod.fst).length := by
    rw [List.length_map]
  have hperm : List.Perm ((buildGraph t).nodes.map Prod.fst)
      (((treeOccPairs t).map (fun pr => dedupKey pr.1 pr.2)).dedup) := by
    rw [List.perm_ext_iff_of_nodup (buildGraph_nodupKeys t) (List.nodup_dedup _)]
    intro a
    rw [← containsKey_iff_mem, hkeys a, List.mem_dedup]
  rw [hlen1, hperm.length_eq]
  exact dedup_length_map_dedupKey _ (entOccPairs_atFree _ h2)

/-- Witness for C1 (amended): instantiated at the diamond tree — three
distinct pairs, three table entries. -/
theorem buildGraph_nodes_dedup_witness :
    ((buildGraph diamondTree).nodes.map Prod.fst).Nodup ∧
    (buildGraph diamondTree).nodes.length =
      ((treeOccPairs diamondTree).dedup).length :=
  ⟨(buildGraph_nodes_dedup diamondTree (by decide) (by decide)).1,
   (buildGraph_nodes_dedup diamondTree (by decide) (by decide)).2.2⟩

/-- Witness for C5: revisiting `x@1.0.0` (already stored with depth 0, no
parent, non-dev) at depth 7, as a dev dependency with parent `y@2.0.0`,
leaves the stored fields unchanged. -/
theorem buildNodeRecursive_first_seen_wins_witness :
    ∃ n', alLookup (buildNodeRecursive sampleDep "x@1.0.0" 7 (some "y@2.0.0")
        true sampleState).nodes "x@1.0.0" = some n' ∧
      n'.depth = sampleNode.depth ∧ n'.parent = sampleNode.parent ∧
      n'.isDevDependency = sampleNode.isDevDependency ∧
      n'.id = sampleNode.id ∧ n'.name = sampleNode.name ∧
      n'.version = sampleNode.version ∧
      sampleNode.children ⊆ n'.children :=
  buildNodeRecursive_first_seen_wins sampleDep "x@1.0.0" 7 (some "y@2.0.0")
    true sampleState sampleNode (by decide)

/-! Reachability invariant of the builder (claim C6). -/

theorem containsKey_append_left {α : Type} {l : List (String × α)} {k : String}
    (l₂ : List (String × α)) (h : containsKey l k = true) :
    containsKey (l ++ l₂) k = true := by
  unfold containsKey at *
  cases hl : alLookup l k with
  | none => rw [hl] at h; simp at h
  | some v => rw [alLookup_append_left l₂ hl]; rfl

theorem exists_of_containsKey {α : Type} {l : List (String × α)} {k : String}
    (h : containsKey l k = true) : ∃ v, alLookup l k = some v := by
  unfold containsKey at h
  exact Option.isSome_iff_exists.mp h

theorem containsKey_of_alLookup {α : Type} {l : List (String × α)} {k : String}
    {v : α} (h : alLookup l k = some v) : containsKey l k = true := by
  unfold containsKey
  rw [h]
  rfl

theorem containsKey_of_extends {ns ns' : List (String × GraphNode)} {k : String}
    (hext : MapExtends ns ns') (h : containsKey ns k = true) :
    containsKey ns' k = true := by
  obtain ⟨v, hv⟩ := exists_of_containsKey h
  obtain ⟨n', hl', _⟩ := hext k v hv
  exact containsKey_of_alLookup hl'

theorem reachableIn_mono {ns ns' : List (String × GraphNode)}
    {roots roots' : List String} (hext : MapExtends ns ns')
    (hroots : roots ⊆ roots') {k : String} (h : ReachableIn ns roots k) :
    ReachableIn ns' roots' k := by
  induction h with
  | root r hr => exact ReachableIn.root r (hroots hr)
  | child p c node hp hl hc ih =>
    obtain ⟨n', hl', hf⟩ := hext p node hl
    exact ReachableIn.child p c n' ih hl' (hf.2.2.2.2.2.2 hc)

theorem reachable_of_containsKey {roots : List String} {st : BuildState}
    {k : String} (hgood : GoodState roots st)
    (h : containsKey st.nodes k = true) : ReachableIn st.nodes roots k := by
  obtain ⟨v, hv⟩ := exists_of_containsKey h
  exact hgood.2.2 (k, v) (mem_of_alLookup_eq_some hv)

theorem mem_alUpdate {α : Type} {l : List (String × α)} {key : String}
    {f : α → α} {e : String × α} (h : e ∈ alUpdate l key f) :
    ∃ e₀ ∈ l, e = e₀ ∨ (e₀.1 = key ∧ e = (e₀.1, f e₀.2)) := by
  induction l with
  | nil => simp [alUpdate] at h
  | cons e₁ rest ih =>
    obtain ⟨a, v⟩ := e₁
    by_cases hak : a = key
    · simp only [alUpdate, if_pos hak] at h
      rcases List.mem_cons.mp h with rfl | h'
      · exact ⟨(a, v), List.mem_cons_self _ _, Or.inr ⟨hak, rfl⟩⟩
      · obtain ⟨e₀, he₀, hor⟩ := ih h'
        exact ⟨e₀, List.mem_cons_of_mem _ he₀, hor⟩
    · simp only [alUpdate, if_neg hak] at h
      rcases List.mem_cons.mp h with rfl | h'
      · exact ⟨(a, v), List.mem_cons_self _ _, Or.inl rfl⟩
      · obtain ⟨e₀, he₀, hor⟩ := ih h'
        exact ⟨e₀, List.mem_cons_of_mem _ he₀, hor⟩

theorem addNodeIfAbsent_of_contains {name version nodeId : String}
    {depth : Nat} {parent : Option String} {isDev : Bool} {st : BuildState}
    (h : containsKey st.nodes nodeId = true) :
    addNodeIfAbsent name version nodeId depth parent isDev st = st := by
  unfold addNodeIfAbsent
  rw [if_pos h]

theorem addNodeIfAbsent_of_absent {name version nodeId : String}
    {depth : Nat} {parent : Option String} {isDev : Bool} {st : BuildState}
    (h : ¬ containsKey st.nodes nodeId = true) :
    addNodeIfAbsent name version nodeId depth parent isDev st =
      { st with nodes := st.nodes ++
        [(nodeId, freshNode name version nodeId depth parent isDev)] } := by
  unfold addNodeIfAbsent
  rw [if_neg h]

/-- Linking an existing node to an existing parent preserves the invariant,
provided every entry except possibly the linked node is already reachable
and the parent is reachable. -/
theorem linkParent_good_aux (roots : List String) (nodeId p : String)
    (st : BuildState)
    (hcc : ∀ e ∈ st.nodes, ∀ c ∈ e.2.children, containsKey st.nodes c = true)
    (hed : ∀ ed ∈ st.edges, containsKey st.nodes ed.1 = true ∧
      containsKey st.nodes ed.2 = true)
    (hre : ∀ e ∈ st.nodes, e.1 = nodeId ∨ ReachableIn st.nodes roots e.1)
    (hp : containsKey st.nodes p = true)
    (hnid : containsKey st.nodes nodeId = true)
    (hpreach : ReachableIn st.nodes roots p) :
    GoodState roots (linkParent nodeId (some p) st) ∧
      containsKey (linkParent nodeId (some p) st).nodes nodeId = true := by
  obtain ⟨pn, hpn⟩ := exists_of_containsKey hp
  simp only [linkParent, hpn]
  by_cases hm : nodeId ∈ pn.children
  · rw [if_pos hm]
    refine ⟨⟨hcc, ?_, ?_⟩, hnid⟩
    · intro ed hed'
      rcases List.mem_append.mp hed' with h' | h'
      · exact hed ed h'
      · rw [List.mem_singleton] at h'
        subst h'
        exact ⟨hp, hnid⟩
    · intro e he
      rcases hre e he with heq | hr
      · rw [heq]
        exact ReachableIn.child p nodeId pn hpreach hpn hm
      · exact hr
  · rw [if_neg hm]
    have hext : MapExtends st.nodes
        (alUpdate st.nodes p (fun n => { n with children := n.children ++ [nodeId] })) :=
      mapExtends_update_children _ _ _
    have hkeys : ∀ k, containsKey
        (alUpdate st.nodes p (fun n => { n with children := n.children ++ [nodeId] })) k
          = true ↔ containsKey st.nodes k = true := by
      intro k
      rw [containsKey_iff_mem, alUpdate_map_fst, ← containsKey_iff_mem]
    have hlookp : alLookup
        (alUpdate st.nodes p (fun n => { n with children := n.children ++ [nodeId] })) p
          = some { pn with children := pn.children ++ [nodeId] } := by
      rw [alLookup_alUpdate]
      simp [hpn]
    have hreachN : ReachableIn
        (alUpdate st.nodes p (fun n => { n with children := n.children ++ [nodeId] }))
        roots nodeId :=
      ReachableIn.child p nodeId _
        (reachableIn_mono hext (fun x hx => hx) hpreach) hlookp (by simp)
    refine ⟨⟨?_, ?_, ?_⟩, (hkeys _).mpr hnid⟩
    · intro e he c hc
      obtain ⟨e₀, he₀, hor⟩ := mem_alUpdate he
      rcases hor with heq | ⟨_hk, heq⟩
      · rw [heq] at hc
        exact (hkeys c).mpr (hcc e₀ he₀ c hc)
      · rw [heq] at hc
        rcases List.mem_append.mp hc with hc' | hc'
        · exact (hkeys c).mpr (hcc e₀ he₀ c hc')
        · rw [List.mem_singleton] at hc'
          subst hc'
          exact (hkeys _).mpr hnid
    · intro ed hed'
      rcases List.mem_append.mp hed' with h' | h'
      · obtain ⟨h1, h2⟩ := hed ed h'
        exact ⟨(hkeys _).mpr h1, (hkeys _).mpr h2⟩
      · rw [List.mem_singleton] at h'
        subst h'
        exact ⟨(hkeys _).mpr hp, (hkeys _).mpr hnid⟩
    · intro e he
      obtain ⟨e₀, he₀, hor⟩ := mem_alUpdate he
      have h1 : e.1 = e₀.1 := by
        rcases hor with heq | ⟨_, heq⟩ <;> rw [heq]
      rw [h1]
      rcases hre e₀ he₀ with heq | hr
      · rw [heq]
        exact hreachN
      · exact reachableIn_mono hext (fun x hx => hx) hr

/-- One visit preserves the invariant: the visited node ends in the table,
and everything stored stays reachable. -/
theorem visitNode_good (name version nodeId : String) (depth : Nat)
    (parent : Option String) (isDev : Bool) (st : BuildState)
    (roots : List String) (hgood : GoodState roots st)
    (hpar : ∀ p, parent = some p → containsKey st.nodes p = true)
    (hroot : parent = none → nodeId ∈ roots) :
    GoodState roots (visitNode name version nodeId depth parent isDev st) ∧
      containsKey (visitNode name version nodeId depth parent isDev st).nodes
        nodeId = true := by
  by_cases hpres : containsKey st.nodes nodeId = true
  · cases parent with
    | none =>
      unfold visitNode
      rw [addNodeIfAbsent_of_contains hpres]
      exact ⟨hgood, hpres⟩
    | some p =>
      unfold visitNode
      rw [addNodeIfAbsent_of_contains hpres]
      exact linkParent_good_aux roots nodeId p st hgood.1 hgood.2.1
        (fun e he => Or.inr (hgood.2.2 e he)) (hpar p rfl) hpres
        (reachable_of_containsKey hgood (hpar p rfl))
  · have hext1 : MapExtends st.nodes (st.nodes ++
        [(nodeId, freshNode name version nodeId depth parent isDev)]) :=
      mapExtends_append _ _
    have hcc1 : ∀ e ∈ st.nodes ++
        [(nodeId, freshNode name version nodeId depth parent isDev)],
        ∀ c ∈ e.2.children, containsKey (st.nodes ++
          [(nodeId, freshNode name version nodeId depth parent isDev)]) c
            = true := by
      intro e he c hc
      rcases List.mem_append.mp he with he' | he'
      · exact containsKey_append_left _ (hgood.1 e he' c hc)
      · rw [List.mem_singleton] at he'
        subst he'
        simp [freshNode] at hc
    have hed1 : ∀ ed ∈ st.edges, containsKey (st.nodes ++
        [(nodeId, freshNode name version nodeId depth parent isDev)]) ed.1
          = true ∧ containsKey (st.nodes ++
        [(nodeId, freshNode name version nodeId depth parent isDev)]) ed.2
          = true := by
      intro ed hed
      obtain ⟨h1, h2⟩ := hgood.2.1 ed hed
      exact ⟨containsKey_append_left _ h1, containsKey_append_left _ h2⟩
    have hnid1 : containsKey (st.nodes ++
        [(nodeId, freshNode name version nodeId depth parent isDev)]) nodeId
          = true := by
      rw [containsKey_iff_mem]
      simp
    cases parent with
    | none =>
      unfold visitNode
      rw [addNodeIfAbsent_of_absent hpres]
      refine ⟨⟨hcc1, hed1, ?_⟩, hnid1⟩
      intro e he
      rcases List.mem_append.mp he with he' | he'
      · exact reachableIn_mono hext1 (fun x hx => hx) (hgood.2.2 e he')
      · rw [List.mem_singleton] at he'
        subst he'
        exact ReachableIn.root _ (hroot rfl)
    | some p =>
      unfold visitNode
      rw [addNodeIfAbsent_of_absent hpres]
      have hp : containsKey st.nodes p = true := hpar p rfl
      have hre1 : ∀ e ∈ st.nodes ++
          [(nodeId, freshNode name version nodeId depth (some p) isDev)],
          e.1 = nodeId ∨ ReachableIn (st.nodes ++
            [(nodeId, freshNode name version nodeId depth (some p) isDev)])
            roots e.1 := by
        intro e he
        rcases List.mem_append.mp he with he' | he'
        · exact Or.inr (reachableIn_mono hext1 (fun x hx => hx)
            (hgood.2.2 e he'))
        · rw [List.mem_singleton] at he'
          subst he'
          exact Or.inl rfl
      exact linkParent_good_aux roots nodeId p
        { st with nodes := st.nodes ++
          [(nodeId, freshNode name version nodeId depth (some p) isDev)] }
        hcc1 hed1 hre1 (containsKey_append_left _ hp) hnid1
        (reachableIn_mono hext1 (fun x hx => hx)
          (reachable_of_containsKey hgood hp))

theorem buildEntriesRec_good (e : DepEntries) :
    ∀ (parentId : String) (depth : Nat) (isDev : Bool) (st : BuildState)
      (roots : List String),
      GoodState roots st → containsKey st.nodes parentId = true →
      GoodState roots (buildEntriesRec e parentId depth isDev st) := by
  induction e with
  | nil => intro parentId depth isDev st roots hgood _; exact hgood
  | cons key name version resolved deps rest ihd ihr =>
    intro parentId depth isDev st roots hgood hpid
    simp only [buildEntriesRec]
    have h1 := visitNode_good name version (dedupKey key version) (depth + 1)
      (some parentId) isDev st roots hgood
      (fun p hp => by cases hp; exact hpid) (fun h => by cases h)
    have h2 := ihd (dedupKey key version) (depth + 1) isDev _ roots h1.1 h1.2
    refine ihr parentId depth isDev _ roots h2 ?_
    have hex : MapExtends
        (visitNode name version (dedupKey key version) (depth + 1)
          (some parentId) isDev st).nodes
        (buildEntriesRec deps (dedupKey key version) (depth + 1) isDev
          (visitNode name version (dedupKey key version) (depth + 1)
            (some parentId) isDev st)).nodes :=
      buildEntriesRec_extends deps _ _ _ _
    have hpid1 : containsKey
        (visitNode name version (dedupKey key version) (depth + 1)
          (some parentId) isDev st).nodes parentId = true := by
      rw [visitNode_containsKey]
      exact Or.inl hpid
    exact containsKey_of_extends hex hpid1

theorem buildRootsRec_roots (e : DepEntries) :
    ∀ (st : BuildState) (acc : List String),
      (buildRootsRec e st acc).2 = acc ++ rootKeysOf e := by
  induction e with
  | nil => intro st acc; simp [buildRootsRec, rootKeysOf]
  | cons key name version resolved deps rest ihd ihr =>
    intro st acc
    simp only [buildRootsRec, rootKeysOf]
    rw [ihr]
    simp

theorem buildRootsRec_good (e : DepEntries) :
    ∀ (st : BuildState) (acc : List String) (R : List String),
      GoodState R st → (∀ k ∈ rootKeysOf e, k ∈ R) →
      GoodState R (buildRootsRec e st acc).1 := by
  induction e with
  | nil => intro st acc R hgood _; exact hgood
  | cons key name version resolved deps rest ihd ihr =>
    intro st acc R hgood hR
    simp only [buildRootsRec]
    have h1 := visitNode_good name version (dedupKey key version) 0 none false
      st R hgood (fun p hp => by cases hp)
      (fun _ => hR _ (List.mem_cons_self _ _))
    have h2 := buildEntriesRec_good deps (dedupKey key version) 0 false _ R
      h1.1 h1.2
    exact ihr _ _ R h2 (fun k hk => hR k (List.mem_cons_of_mem _ hk))

/-- The empty build state satisfies the invariant for any root set. -/
theorem goodState_empty (R : List String) : GoodState R ⟨[], []⟩ := by
  refine ⟨?_, ?_, ?_⟩ <;> intro e he <;> simp at he

/-- Claim C6: every graph produced by `buildGraph` is well-formed — every id
in any node's children list has a table entry, every edge's endpoints have
table entries, and every edge's target is reachable from some root by
following children links. -/
theorem buildGraph_wellformed (t : DependencyTree) :
    (∀ e ∈ (buildGraph t).nodes, ∀ c ∈ e.2.children,
      containsKey (buildGraph t).nodes c = true) ∧
    (∀ ed ∈ (buildGraph t).edges,
      containsKey (buildGraph t).nodes ed.1 = true ∧
      containsKey (buildGraph t).nodes ed.2 = true) ∧
    (∀ ed ∈ (buildGraph t).edges,
      ReachableIn (buildGraph t).nodes (buildGraph t).roots ed.2) := by
  have hroots : (buildGraph t).roots = rootKeysOf t.dependencies := by
    show (buildRootsRec t.dependencies ⟨[], []⟩ []).2 = _
    rw [buildRootsRec_roots]
    simp
  have hgood : GoodState (rootKeysOf t.dependencies)
      (buildRootsRec t.dependencies ⟨[], []⟩ []).1 :=
    buildRootsRec_good t.dependencies ⟨[], []⟩ [] (rootKeysOf t.dependencies)
      (goodState_empty _) (fun k hk => hk)
  refine ⟨hgood.1, hgood.2.1, ?_⟩
  intro ed hed
  rw [hroots]
  exact reachable_of_containsKey hgood (hgood.2.1 ed hed).2

/-- Witness for C6: in the diamond graph, the edge target `b@2.0.0` is
reachable from the roots. -/
theorem buildGraph_wellformed_witness :
    ReachableIn (buildGraph diamondTree).nodes (buildGraph diamondTree).roots
      "b@2.0.0" :=
  (buildGraph_wellformed diamondTree).2.2 ("a@1.0.0", "b@2.0.0") (by decide)

/-! Termination of the builder recursion (claim C9). -/

theorem entHeight_le_entSize (e : DepEntries) : entHeight e ≤ entSize e := by
  induction e with
  | nil => exact Nat.le_refl 0
  | cons key name version resolved deps rest ihd ihr =>
    simp only [entHeight, entSize]
    exact max_le (by omega) (by omega)

theorem buildEntriesRecF_eq (e : DepEntries) :
    ∀ (fuel : Nat) (parentId : String) (depth : Nat) (isDev : Bool)
      (st : BuildState), entHeight e ≤ fuel →
      buildEntriesRecF fuel e parentId depth isDev st =
        some (buildEntriesRec e parentId depth isDev st) := by
  induction e with
  | nil => intro fuel parentId depth isDev st _; rfl
  | cons key name version resolved deps rest ihd ihr =>
    intro fuel parentId depth isDev st hle
    simp only [entHeight] at hle
    obtain ⟨f, rfl⟩ : ∃ f, fuel = f + 1 :=
      ⟨fuel - 1, by omega⟩
    simp only [buildEntriesRecF, buildEntriesRec]
    rw [ihd f _ _ _ _ (by omega)]
    exact ihr (f + 1) _ _ _ _ (by omega)

theorem buildRootsRecF_eq (e : DepEntries) :
    ∀ (fuel : Nat) (st : BuildState) (acc : List String),
      entHeight e ≤ fuel →
      buildRootsRecF fuel e st acc = some (buildRootsRec e st acc) := by
  induction e with
  | nil => intro fuel st acc _; rfl
  | cons key name version resolved deps rest ihd ihr =>
    intro fuel st acc hle
    simp only [entHeight] at hle
    obtain ⟨f, rfl⟩ : ∃ f, fuel = f + 1 :=
      ⟨fuel - 1, by omega⟩
    simp only [buildRootsRecF, buildRootsRec]
    rw [buildEntriesRecF_eq deps f _ _ _ _ (by omega)]
    exact ihr (f + 1) _ _ (by omega)

/-- Claim C9: the builder's unguarded recursion is total on (finite,
necessarily acyclic) dependency trees: with the recursion-depth budget made
explicit as fuel, a budget equal to the tree's size — and hence linear in
the input — always suffices, and the fuelled run returns exactly
`buildGraph`.  (Inductive trees cannot encode the cyclic inputs on which the
TypeScript recursion would diverge, so the acyclicity precondition is
inherent in the embedding.) -/
theorem buildGraphF_terminates (t : DependencyTree) :
    buildGraphF (treeSize t) t = some (buildGraph t) := by
  unfold buildGraphF treeSize
  rw [buildRootsRecF_eq t.dependencies _ _ _ (entHeight_le_entSize _)]
  rfl

/-! Path-query characterization (claim C2). -/

theorem firstMatchDesc_names_target {g : DependencyGraph} {target cur : String}
    {ext : List String} (h : FirstMatchDesc g target cur ext) :
    ∃ c cn, alLookup g.nodes c = some cn ∧ cn.name = target := by
  induction h with
  | found cur childId node childNode hcur hmem hchild hname =>
    exact ⟨childId, childNode, hchild, hname⟩
  | step cur childId node childNode rest hcur hmem hchild hname htail ih =>
    exact ih

theorem mem_findPathsRecursive (g : DependencyGraph) (target : String) :
    ∀ (fuel : Nat) (cur : String) (curPath : List String) (p : List String),
      p ∈ findPathsRecursive g target fuel cur curPath ↔
        ∃ ext, p = curPath ++ ext ∧ FirstMatchDesc g target cur ext ∧
          ext.length ≤ fuel := by
  intro fuel
  induction fuel with
  | zero =>
    intro cur curPath p
    simp only [findPathsRecursive, List.not_mem_nil, false_iff]
    rintro ⟨ext, _, hd, hlen⟩
    cases hd <;> simp at hlen
  | succ fuel ih =>
    intro cur curPath p
    simp only [findPathsRecursive]
    cases hcur : alLookup g.nodes cur with
    | none =>
      constructor
      · intro h
        simp at h
      · rintro ⟨ext, _, hd, _⟩
        cases hd with
        | found cur childId node childNode h1 h2 h3 h4 =>
          rw [hcur] at h1
          cases h1
        | step cur childId node childNode rest h1 h2 h3 h4 h5 =>
          rw [hcur] at h1
          cases h1
    | some node =>
      rw [List.mem_flatten]
      constructor
      · rintro ⟨l, hl, hpl⟩
        obtain ⟨childId, hmem, rfl⟩ := List.mem_map.mp hl
        revert hpl
        cases hc : alLookup g.nodes childId with
        | none =>
          intro hpl
          simp at hpl
        | some childNode =>
          intro hpl
          dsimp only at hpl
          by_cases hname : childNode.name = target
          · rw [if_pos hname, List.mem_singleton] at hpl
            subst hpl
            exact ⟨[childId], rfl,
              FirstMatchDesc.found cur childId node childNode hcur hmem hc hname,
              by simp⟩
          · rw [if_neg hname] at hpl
            obtain ⟨ext, hp, hd, hlen⟩ :=
              (ih childId (curPath ++ [childId]) p).mp hpl
            refine ⟨childId :: ext, ?_, ?_, ?_⟩
            · rw [hp, List.append_assoc, List.singleton_append]
            · exact FirstMatchDesc.step cur childId node childNode ext hcur
                hmem hc hname hd
            · simpa using Nat.succ_le_succ hlen
      · rintro ⟨ext, hp, hd, hlen⟩
        cases hd with
        | found cur childId node' childNode h1 h2 h3 h4 =>
          rw [hcur] at h1
          injection h1 with h1
          subst h1
          refine ⟨[curPath ++ [childId]], ?_, ?_⟩
          · refine List.mem_map.mpr ⟨childId, h2, ?_⟩
            rw [h3]
            dsimp only
            rw [if_pos h4]
          · rw [List.mem_singleton, hp]
        | step cur childId node' childNode rest h1 h2 h3 h4 h5 =>
          rw [hcur] at h1
          injection h1 with h1
          subst h1
          refine ⟨findPathsRecursive g target fuel childId (curPath ++ [childId]),
            ?_, ?_⟩
          · refine List.mem_map.mpr ⟨childId, h2, ?_⟩
            rw [h3]
            dsimp only
            rw [if_neg h4]
          · refine (ih childId (curPath ++ [childId]) p).mpr ⟨rest, ?_, h5, ?_⟩
            · rw [hp, List.append_assoc, List.singleton_append]
            · simp only [List.length_cons] at hlen
              omega

theorem mem_findDependencyPath (g : DependencyGraph) (name : String)
    (p : List String) :
    p ∈ findDependencyPath g name ↔
      (∃ r node, r ∈ g.roots ∧ alLookup g.nodes r = some node ∧
        node.name = name ∧ p = [r]) ∨
      (∃ r node ext, r ∈ g.roots ∧ alLookup g.nodes r = some node ∧
        ¬ node.name = name ∧ FirstMatchDesc g name r ext ∧
        ext.length ≤ g.nodes.length ∧ p = r :: ext) := by
  unfold findDependencyPath
  rw [List.mem_flatten]
  constructor
  · rintro ⟨l, hl, hpl⟩
    obtain ⟨r, hr, rfl⟩ := List.mem_map.mp hl
    revert hpl
    cases hroot : alLookup g.nodes r with
    | none =>
      intro hpl
      simp at hpl
    | some rootNode =>
      intro hpl
      dsimp only at hpl
      by_cases hname : rootNode.name = name
      · rw [if_pos hname, List.mem_singleton] at hpl
        exact Or.inl ⟨r, rootNode, hr, hroot, hname, hpl⟩
      · rw [if_neg hname] at hpl
        obtain ⟨ext, hp, hd, hlen⟩ :=
          (mem_findPathsRecursive g name _ r [r] p).mp hpl
        refine Or.inr ⟨r, rootNode, ext, hr, hroot, hname, hd, hlen, ?_⟩
        rw [hp, List.singleton_append]
  · rintro (⟨r, node, hr, hroot, hname, rfl⟩ |
      ⟨r, node, ext, hr, hroot, hname, hd, hlen, rfl⟩)
    · refine ⟨[[r]], ?_, by simp⟩
      refine List.mem_map.mpr ⟨r, hr, ?_⟩
      rw [hroot]
      dsimp only
      rw [if_pos hname]
    · refine ⟨findPathsRecursive g name g.nodes.length r [r], ?_, ?_⟩
      · refine List.mem_map.mpr ⟨r, hr, ?_⟩
        rw [hroot]
        dsimp only
        rw [if_neg hname]
      · exact (mem_findPathsRecursive g name _ r [r] (r :: ext)).mpr
          ⟨ext, by rw [List.singleton_append], hd, hlen⟩

/-- Claim C2 (amended): `findDependencyPath` enumerates, per root in
declaration order, exactly the id-sequences that start at that root, follow
recorded child links, and end at the *first* node along the branch whose
name matches — a matching node is reported but not descended below, and a
matching root yields only its one-element path.  (The embedded traversal
carries an explicit recursion budget of one step per table entry, enough for
every repetition-free path; the TypeScript recursion is unguarded.)  A name
carried by no node still yields the empty list. -/
theorem findDependencyPath_first_match (g : DependencyGraph) (name : String) :
    (∀ p, p ∈ findDependencyPath g name ↔
      ((∃ r node, r ∈ g.roots ∧ alLookup g.nodes r = some node ∧
        node.name = name ∧ p = [r]) ∨
       (∃ r node ext, r ∈ g.roots ∧ alLookup g.nodes r = some node ∧
        ¬ node.name = name ∧ FirstMatchDesc g name r ext ∧
        ext.length ≤ g.nodes.length ∧ p = r :: ext))) ∧
    ((∀ e ∈ g.nodes, ¬ e.2.name = name) → findDependencyPath g name = []) := by
  refine ⟨mem_findDependencyPath g name, ?_⟩
  intro habsent
  rw [List.eq_nil_iff_forall_not_mem]
  intro p hp
  rcases (mem_findDependencyPath g name p).mp hp with
    ⟨r, node, _, hroot, hname, _⟩ |
    ⟨r, node, ext, _, _, _, hd, _, _⟩
  · exact habsent (r, node) (mem_of_alLookup_eq_some hroot) hname
  · obtain ⟨c, cn, hc, hcn⟩ := firstMatchDesc_names_target hd
    exact habsent (c, cn) (mem_of_alLookup_eq_some hc) hcn

/-- Witness for C2 (amended): in the diamond graph no node is named `zzz`,
and the query returns the empty list. -/
theorem findDependencyPath_first_match_witness :
    findDependencyPath (buildGraph diamondTree) "zzz" = [] :=
  (findDependencyPath_first_match (buildGraph diamondTree) "zzz").2 (by decide)

/-- Counterexample for C2 as stated: in `nestedNameTree` the node `a@2.0.0`
is present (and named `a`), yet the query for `a` returns only the root path
`[a@1.0.0]` — the traversal does not descend below the matching root, so the
nested occurrence yields no path of its own. -/
theorem findDependencyPath_stops_at_first_match :
    containsKey (buildGraph nestedNameTree).nodes "a@2.0.0" = true ∧
    (alLookup (buildGraph nestedNameTree).nodes "a@2.0.0").map GraphNode.name
      = some "a" ∧
    findDependencyPath (buildGraph nestedNameTree) "a" = [["a@1.0.0"]] := by
  refine ⟨by decide, by decide, by decide⟩

/-! Identity canonicalizer facts (claims C1 counterexample, C3, C4). -/

/-- Counterexample for C1 as stated: a well-named tree whose two distinct
`(name, version)` pairs — `("a", "b@c")` and `("a@b", "c")` — render the
same dedup key `a@b@c`, so the node table has one entry although the
deduplicated pair set has two elements. -/
theorem buildGraph_collapses_at_collision :
    treeWellNamed atCollisionTree = true ∧
    (buildGraph atCollisionTree).nodes.length = 1 ∧
    ((treeOccPairs atCollisionTree).dedup).length = 2 := by
  refine ⟨by decide, by decide, by decide⟩

theorem encodeUriComponentL_cons (c : Char) (l : List Char) :
    encodeUriComponentL (c :: l) = encodeUriChar c ++ encodeUriComponentL l := by
  simp [encodeUriComponentL]

theorem splitOnSlash_no_slash (l : List Char) (h : '/' ∉ l) :
    splitOnSlash l = [l] := by
  induction l with
  | nil => rfl
  | cons c rest ih =>
    have hc : ¬ c = '/' := fun hh => h (hh ▸ List.mem_cons_self c rest)
    have hr : '/' ∉ rest := fun hh => h (List.mem_cons_of_mem c hh)
    simp only [splitOnSlash, if_neg hc, ih hr]

theorem splitOnSlash_append (l r : List Char) (h : '/' ∉ l) :
    splitOnSlash (l ++ '/' :: r) = l :: splitOnSlash r := by
  induction l with
  | nil => simp [splitOnSlash]
  | cons c l' ih =>
    have hc : ¬ c = '/' := fun hh => h (hh ▸ List.mem_cons_self c l')
    have hl : '/' ∉ l' := fun hh => h (List.mem_cons_of_mem c hh)
    simp only [List.cons_append, splitOnSlash, if_neg hc, List.append_eq]
    rw [ih hl]

/-- Counterexample for C3 as stated: the scope's leading `@` is *not*
stripped — it is percent-encoded, so the scope segment begins with `%40`,
not with the bare scope name. -/
theorem createBomRef_scoped_counterexample :
    createBomRef "@scope/pkgname" "1.0.0" = "pkg:npm/%40scope/pkgname@1.0.0" ∧
    ¬ createBomRef "@scope/pkgname" "1.0.0" = "pkg:npm/scope/pkgname@1.0.0" := by
  refine ⟨by decide, by decide⟩

/-- Claim C3 (amended): for every scoped name `@scope/pkgname` (scope and
package segment slash-free) the reference is
`pkg:npm/%40<encoded-scope>/<encoded-pkgname>@<version>` — the `@` is kept
and percent-encoded with the rest of the scope segment; for names not
starting with `@` it is `pkg:npm/<percent-encoded-name>@<version>`. -/
theorem createBomRef_scope_encoded (s pk v name : String)
    (hs : ¬ '/' ∈ s.data) (hp : ¬ '/' ∈ pk.data)
    (hn : ¬ name.data.head? = some '@') :
    createBomRef ("@" ++ s ++ "/" ++ pk) v =
      "pkg:npm/%40" ++ encodeUriComponent s ++ "/" ++ encodeUriComponent pk
        ++ "@" ++ v ∧
    createBomRef name v = "pkg:npm/" ++ encodeUriComponent name ++ "@" ++ v := by
  have hdata : ("@" ++ s ++ "/" ++ pk).data =
      ('@' :: s.data) ++ '/' :: pk.data := by
    simp [String.data_append, show ("@" : String).data = ['@'] from rfl,
      show ("/" : String).data = ['/'] from rfl]
  constructor
  · apply String.ext
    unfold createBomRef
    rw [hdata]
    rw [if_pos (by rfl)]
    have hsl : '/' ∉ '@' :: s.data := by
      intro hh
      rcases List.mem_cons.mp hh with hh | hh
      · cases hh
      · exact hs hh
    rw [splitOnSlash_append _ _ hsl, splitOnSlash_no_slash _ hp]
    dsimp only [List.headD, List.drop]
    rw [encodeUriComponentL_cons,
      show encodeUriChar '@' = ['%', '4', '0'] from rfl]
    show "pkg:npm/".data ++ (['%', '4', '0'] ++ encodeUriComponentL s.data) ++
        '/' :: encodeUriComponentL pk.data ++ '@' :: v.data = _
    simp [String.data_append, encodeUriComponent,
      show ("pkg:npm/%40" : String).data =
        "pkg:npm/".data ++ ['%', '4', '0'] from rfl,
      show ("/" : String).data = ['/'] from rfl,
      show ("@" : String).data = ['@'] from rfl]
  · apply String.ext
    unfold createBomRef
    rw [if_neg hn]
    show "pkg:npm/".data ++ encodeUriComponentL name.data ++ '@' :: v.data = _
    simp [String.data_append, encodeUriComponent,
      show ("@" : String).data = ['@'] from rfl]

/-- Witness for C3 (amended): instantiated at `@scope/pkgname@1.0.0` and the
unscoped `lodash@4.17.21`. -/
theorem createBomRef_scope_encoded_witness :
    createBomRef ("@" ++ "scope" ++ "/" ++ "pkgname") "1.0.0" =
      "pkg:npm/%40" ++ encodeUriComponent "scope" ++ "/" ++
        encodeUriComponent "pkgname" ++ "@" ++ "1.0.0" ∧
    createBomRef "lodash" "1.0.0" =
      "pkg:npm/" ++ encodeUriComponent "lodash" ++ "@" ++ "1.0.0" :=
  createBomRef_scope_encoded "scope" "pkgname" "1.0.0" "lodash"
    (by decide) (by decide) (by decide)

/-! SPDX renderer collision behaviour (claim C4). -/

theorem buildPackageMetadataMap_byKey_fold (packages : List PackageInfo) :
    ∀ maps : PackageMetadataMap,
      (packages.foldl (fun maps pkg =>
        { byKey := alSet maps.byKey (createKey pkg.name pkg.version)
            (packageMetadataFor pkg),
          byBomRef := alSet maps.byBomRef (packageMetadataFor pkg).bomRef
            (packageMetadataFor pkg) }) maps).byKey =
      packages.foldl (fun m pkg => alSet m (createKey pkg.name pkg.version)
        (packageMetadataFor pkg)) maps.byKey := by
  induction packages with
  | nil => intro maps; rfl
  | cons pkg rest ih =>
    intro maps
    simp only [List.foldl_cons]
    exact ih _

theorem alSet_fresh {α : Type} (l : List (String × α)) (k : String) (v : α)
    (h : containsKey l k = false) : alSet l k v = l ++ [(k, v)] := by
  unfold alSet
  simp [h]

theorem foldl_alSet_fresh (packages : List PackageInfo) :
    ∀ acc : List (String × PackageMetadata),
      (∀ pkg ∈ packages,
        containsKey acc (createKey pkg.name pkg.version) = false) →
      (packages.map (fun p => createKey p.name p.version)).Nodup →
      packages.foldl (fun m pkg => alSet m (createKey pkg.name pkg.version)
          (packageMetadataFor pkg)) acc =
        acc ++ packages.map
          (fun p => (createKey p.name p.version, packageMetadataFor p)) := by
  induction packages with
  | nil => intro acc _ _; simp
  | cons pkg rest ih =>
    intro acc hfresh hnodup
    simp only [List.foldl_cons, List.map_cons]
    rw [alSet_fresh _ _ _ (hfresh pkg (List.mem_cons_self _ _))]
    have hfresh' : ∀ q ∈ rest, containsKey
        (acc ++ [(createKey pkg.name pkg.version, packageMetadataFor pkg)])
        (createKey q.name q.version) = false := by
      intro q hq
      have h1 : containsKey acc (createKey q.name q.version) = false :=
        hfresh q (List.mem_cons_of_mem _ hq)
      have h2 : ¬ createKey q.name q.version = createKey pkg.name pkg.version := by
        simp only [List.map_cons, List.nodup_cons] at hnodup
        intro he
        exact hnodup.1 (he ▸ List.mem_map_of_mem _ hq)
      have hnotmem : ¬ createKey q.name q.version ∈
          (acc ++ [(createKey pkg.name pkg.version, packageMetadataFor pkg)]).map
            Prod.fst := by
        simp only [List.map_append, List.map_cons, List.map_nil,
          List.mem_append, List.mem_singleton]
        rintro (hmem | he)
        · exact absurd ((containsKey_iff_mem _ _).mpr hmem) (by simp [h1])
        · exact h2 he
      cases hck : containsKey
          (acc ++ [(createKey pkg.name pkg.version, packageMetadataFor pkg)])
          (createKey q.name q.version) with
      | false => rfl
      | true => exact absurd ((containsKey_iff_mem _ _).mp hck) hnotmem
    have hnodup' : (rest.map (fun p => createKey p.name p.version)).Nodup := by
      simp only [List.map_cons, List.nodup_cons] at hnodup
      exact hnodup.2
    rw [ih _ hfresh' hnodup']
    simp

theorem byKey_values_of_nodup (packages : List PackageInfo)
    (h : (packages.map (fun p => createKey p.name p.version)).Nodup) :
    alValues (buildPackageMetadataMap packages).byKey =
      packages.map packageMetadataFor := by
  unfold buildPackageMetadataMap
  rw [buildPackageMetadataMap_byKey_fold]
  rw [foldl_alSet_fresh packages [] (fun q _ => rfl) h]
  simp [alValues, List.map_map, Function.comp]

/-- Counterexample for C4 as stated: `a/b@1.0.0` and `a-b@1.0.0` sanitize to
the same SPDX element id, and the renderer emits both package entries under
that shared `SPDXID` without surfacing any error. -/
theorem createSpdxRef_collision_not_rejected :
    createSpdxRef "a/b" "1.0.0" = createSpdxRef "a-b" "1.0.0" ∧
    (buildSpdxPackages spdxCollisionTree
        (buildPackageMetadataMap spdxCollisionTree.packages).byKey
        defaultOpts).map (fun p => p.SPDXID) =
      ["SPDXRef-demo-1.0.0", "SPDXRef-a-b-1.0.0", "SPDXRef-a-b-1.0.0"] := by
  refine ⟨by decide, by decide⟩

/-- Claim C4 (amended): the SPDX renderer performs no collision detection on
sanitized element ids: for any package set with distinct dedup keys it emits
the root entry plus exactly one entry per package, each carrying
`createSpdxRef name version` as its `SPDXID`, even when those ids collide —
no failure path exists (`buildSpdxPackages` and the whole generator contain
no throw). -/
theorem buildSpdxPackages_emits_all (tree : DependencyTree)
    (options : SbomGenerateOptions) (packages : List PackageInfo)
    (h : (packages.map (fun p => createKey p.name p.version)).Nodup) :
    (buildSpdxPackages tree (buildPackageMetadataMap packages).byKey
        options).map (fun p => p.SPDXID) =
      createSpdxRef
          ((options.metadata.bind (fun m => m.componentName)).getD tree.name)
          ((options.metadata.bind (fun m => m.componentVersion)).getD tree.version) ::
        packages.map (fun p => createSpdxRef p.name p.version) := by
  unfold buildSpdxPackages
  simp only [List.map_cons]
  rw [byKey_values_of_nodup packages h]
  simp [List.map_map, Function.comp, packageMetadataFor]

/-- Witness for C4 (amended): both colliding packages are emitted, ids
rendered by `createSpdxRef`. -/
theorem buildSpdxPackages_emits_all_witness :
    (buildSpdxPackages spdxCollisionTree
        (buildPackageMetadataMap spdxCollisionTree.packages).byKey
        defaultOpts).map (fun p => p.SPDXID) =
      createSpdxRef
          ((defaultOpts.metadata.bind (fun m => m.componentName)).getD
            spdxCollisionTree.name)
          ((defaultOpts.metadata.bind (fun m => m.componentVersion)).getD
            spdxCollisionTree.version) ::
        spdxCollisionTree.packages.map (fun p => createSpdxRef p.name p.version) :=
  buildSpdxPackages_emits_all spdxCollisionTree defaultOpts
    spdxCollisionTree.packages (by decide)

/-! Vulnerability embedding (claim C7). -/

theorem zip_map_snd_eq {α β : Type} (f : α → β) (l : List α) :
    ∀ pr ∈ l.zip (l.map f), pr.2 = f pr.1 := by
  induction l with
  | nil => intro pr hpr; simp at hpr
  | cons a rest ih =>
    intro pr hpr
    simp only [List.map_cons, List.zip_cons_cons, List.mem_cons] at hpr
    rcases hpr with rfl | hpr
    · rfl
    · exact ih pr hpr

theorem reduceOption_map_eq_filterMap {α β : Type} (g : α → Option β)
    (l : List α) : (l.map g).reduceOption = l.filterMap g := by
  induction l with
  | nil => rfl
  | cons a rest ih =>
    cases hg : g a <;> simp [List.filterMap_cons, hg, ih]

/-- Claim C7: the CycloneDX embedder emits exactly one entry per finding —
with an empty `affects` list when the finding's dedup key resolves to no
package and a one-element `{ref}` list when it does — while the SPDX
embedder emits one `REVIEW` annotation per resolvable finding and silently
skips unresolvable ones. -/
theorem vulnerability_embedding (byKey : List (String × PackageMetadata))
    (vulns : List Vulnerability) (generatedAt : String) :
    (buildCycloneDxVulnerabilities vulns byKey).length = vulns.length ∧
    (∀ pr ∈ vulns.zip (buildCycloneDxVulnerabilities vulns byKey),
      pr.2.affects =
        match alLookup byKey (createKey pr.1.package pr.1.version) with
        | some m => [m.bomRef]
        | none => []) ∧
    buildSpdxAnnotations vulns byKey generatedAt =
      vulns.filterMap (fun v =>
        (alLookup byKey (createKey v.package v.version)).map
          (fun m => mkSpdxAnnot v m generatedAt)) ∧
    (∀ a ∈ buildSpdxAnnotations vulns byKey generatedAt,
      a.annotationType = "REVIEW") := by
  refine ⟨by simp [buildCycloneDxVulnerabilities], ?_, ?_, ?_⟩
  · intro pr hpr
    unfold buildCycloneDxVulnerabilities at hpr
    have hsnd := zip_map_snd_eq _ vulns pr hpr
    rw [hsnd]
  · exact reduceOption_map_eq_filterMap _ vulns
  · intro a ha
    rw [buildSpdxAnnotations, reduceOption_map_eq_filterMap] at ha
    obtain ⟨v, _, hv⟩ := List.mem_filterMap.mp ha
    cases hl : alLookup byKey (createKey v.package v.version) with
    | none => rw [hl] at hv; cases hv
    | some m =>
      rw [hl] at hv
      simp only [Option.map_some', Option.some.injEq] at hv
      rw [← hv]
      rfl

/-- Witness for C7: one resolvable and one unresolvable finding against the
diamond tree's package map. -/
theorem vulnerability_embedding_witness :
    (buildCycloneDxVulnerabilities [orphanVuln]
      (buildPackageMetadataMap diamondTree.packages).byKey).length = 1 ∧
    buildSpdxAnnotations [orphanVuln]
      (buildPackageMetadataMap diamondTree.packages).byKey "2024" =
      [orphanVuln].filterMap (fun v =>
        (alLookup (buildPackageMetadataMap diamondTree.packages).byKey
          (createKey v.package v.version)).map
            (fun m => mkSpdxAnnot v m "2024")) :=
  ⟨(vulnerability_embedding (buildPackageMetadataMap diamondTree.packages).byKey
      [orphanVuln] "2024").1,
   (vulnerability_embedding (buildPackageMetadataMap diamondTree.packages).byKey
      [orphanVuln] "2024").2.2.1⟩

/-! Determinism of the renderers (claim C8). -/

/-- Claim C8: with vulnerability attachment disabled, two renders of the
same scan differing only in uuid and timestamp produce identical
`components`/`dependencies` (CycloneDX) and `packages`/`relationships`
(SPDX) — only the serial number / document namespace and timestamp fields
depend on the per-call values. -/
theorem render_deterministic (sr : ScanResult) (opts : SbomGenerateOptions)
    (t1 u1 t2 u2 : String) (_h : opts.attachVulnerabilities = false) :
    (buildCycloneDxBom sr t1 u1 opts).components =
      (buildCycloneDxBom sr t2 u2 opts).components ∧
    (buildCycloneDxBom sr t1 u1 opts).dependencies =
      (buildCycloneDxBom sr t2 u2 opts).dependencies ∧
    (buildSpdxDocument sr t1 u1 opts).packages =
      (buildSpdxDocument sr t2 u2 opts).packages ∧
    (buildSpdxDocument sr t1 u1 opts).relationships =
      (buildSpdxDocument sr t2 u2 opts).relationships :=
  ⟨rfl, rfl, rfl, rfl⟩

/-- Witness for C8 at a concrete scan and two distinct uuid/timestamp
pairs. -/
theorem render_deterministic_witness :
    (buildCycloneDxBom orphanScan "t1" "u1" defaultOpts).components =
      (buildCycloneDxBom orphanScan "t2" "u2" defaultOpts).components ∧
    (buildSpdxDocument orphanScan "t1" "u1" defaultOpts).relationships =
      (buildSpdxDocument orphanScan "t2" "u2" defaultOpts).relationships :=
  ⟨(render_deterministic orphanScan defaultOpts "t1" "u1" "t2" "u2" rfl).1,
   (render_deterministic orphanScan defaultOpts "t1" "u1" "t2" "u2" rfl).2.2.2⟩

/-! The `embeddedVulnerabilities` flag (claim C10). -/

/-- Claim C10: `embeddedVulnerabilities` is true exactly when attachment was
requested and the finding list is non-empty, for either format and
regardless of whether any finding resolves; when attachment is off or there
are no findings, the rendered document carries no `vulnerabilities` key; and
an SPDX result whose annotations all failed to resolve still reports the
flag as true. -/
theorem embeddedVulnerabilities_iff (sr : ScanResult)
    (opts : SbomGenerateOptions) (generatedAt uuid : String) :
    ((generateSbomCore sr opts generatedAt uuid).embeddedVulnerabilities =
        true ↔
      (opts.attachVulnerabilities = true ∧ ¬ sr.vulnerabilities = [])) ∧
    ((opts.attachVulnerabilities = false ∨ sr.vulnerabilities = []) →
      (generateSbomCore sr opts generatedAt
        uuid).document.hasVulnerabilitiesKey = false) ∧
    ((generateSbomCore orphanScan spdxAttachOpts generatedAt
        uuid).embeddedVulnerabilities = true ∧
      (generateSbomCore orphanScan spdxAttachOpts generatedAt
        uuid).document.annotations = []) := by
  refine ⟨?_, ?_, ?_, ?_⟩
  · simp [generateSbomCore, Bool.and_eq_true, List.isEmpty_iff]
  · intro h
    unfold generateSbomCore
    cases hfmt : opts.format.getD SbomFormat.cyclonedx with
    | cyclonedx =>
      show (buildCycloneDxBom sr generatedAt uuid opts).vulnerabilities.isSome
        = false
      unfold buildCycloneDxBom
      rcases h with h | h
      · simp [h]
      · simp [h]
    | spdx => rfl
  · rfl
  · rfl

/-- Witness for C10: with attachment off there is no `vulnerabilities` key,
at a concrete scan. -/
theorem embeddedVulnerabilities_iff_witness :
    (generateSbomCore orphanScan defaultOpts "2024"
      "u").document.hasVulnerabilitiesKey = false :=
  (embeddedVulnerabilities_iff orphanScan defaultOpts "2024" "u").2.1
    (Or.inl rfl)

end SecureSync
